import Mathlib

/-!
Verification development for the SEG compiler (DRo21/SEG).

The development shallowly embeds the parsing-and-codegen pipeline:

* the data model from `include/type.h`, `include/token.h`, `include/ast.h`;
* the recursive-descent parser from the latest parser revision
  (`src/unnamed/part_009`), with node constructors from `src/ast.c`;
* the literal collector and both revisions of the code generator:
  `Codegen` embeds `src/codegen.c` (the revision built by CMakeLists.txt),
  `CodegenIf` embeds the revision with if-statement lowering found in
  `src/unnamed/part_006`;
* an executable machine model for the integer fragment of the emitted
  assembly, used to state semantic correctness claims.

Modelling conventions:

* C token streams are `List Token`; the lexer keeps producing `TOKEN_EOF`
  once exhausted, so the current token of an empty list is an EOF token.
* C functions that call `exit(1)` are embedded as `Except`-valued functions.
* Mutable `result_type` fields are modelled by functional update (`setRT`);
  statement `next` chains are modelled as `List Stmt`.
* Recursive-descent recursion is bounded by an explicit fuel argument so
  that every definition is structurally recursive and kernel-executable;
  running out of fuel is a distinguished error, so any `.ok` result is a
  faithful run of the C code.
* Machine integers are modelled as unbounded `Int`; 64-bit wraparound is
  immaterial to every claim treated here, and `idiv` is modelled by
  `Int.tdiv` (truncation toward zero, as on x86).
-/

set_option autoImplicit false

namespace SEG

/-- Embedding of `VarType` from `include/type.h` (part_004). -/
inductive VarType where
  | unknown
  | int
  | float
  | bool
  | char
  | string
  deriving DecidableEq

/-- Embedding of `TokenType` from `include/token.h`. -/
inductive TokenType where
  | tokEof
  | tokInt
  | tokFloat
  | tokBool
  | tokChar
  | tokString
  | tokIdentifier
  | tokNumber
  | tokBoolLit
  | tokCharLit
  | tokStringLit
  | tokAssign
  | tokPlus
  | tokMinus
  | tokStar
  | tokSlash
  | tokAnd
  | tokOr
  | tokNot
  | tokXor
  | tokEq
  | tokNeq
  | tokLt
  | tokGt
  | tokLeq
  | tokGeq
  | tokIf
  | tokElse
  | tokSemicolon
  | tokLparen
  | tokRparen
  | tokLbrace
  | tokRbrace
  | tokError
  deriving DecidableEq

/-- Embedding of `Token` from `include/token.h` (the `line` field is used
only for diagnostics in the C code and is omitted). -/
structure Token where
  type : TokenType
  lexeme : String
  deriving DecidableEq

/-- Expression-shaped `ASTNode`s from `include/ast.h`: literal, identifier,
binary and unary expressions.  Every node carries its `result_type`. -/
inductive Expr where
  | literal (result_type : VarType) (value : String)
  | ident (result_type : VarType) (name : String)
  | binary (result_type : VarType) (op : TokenType) (left : Expr) (right : Expr)
  | unary (result_type : VarType) (op : TokenType) (operand : Expr)
  deriving DecidableEq

/-- Statement-shaped `ASTNode`s from `include/ast.h`.  The C `next` chain of
a statement sequence is modelled as `List Stmt`; an absent (`NULL`)
`else_branch` is `none`. -/
inductive Stmt where
  | varDecl (result_type : VarType) (var_type : VarType) (name : String) (value : Expr)
  | ifStmt (result_type : VarType) (condition : Expr) (then_branch : List Stmt)
      (else_branch : Option (List Stmt))

/-- Result type stored in an expression node. -/
def Expr.rt : Expr → VarType
  | .literal t _ => t
  | .ident t _ => t
  | .binary t _ _ _ => t
  | .unary t _ _ => t

/-- Functional update of the `result_type` field of the root node,
modelling the C assignments `node->result_type = ...`. -/
def Expr.setRT (e : Expr) (t : VarType) : Expr :=
  match e with
  | .literal _ v => .literal t v
  | .ident _ n => .ident t n
  | .binary _ op l r => .binary t op l r
  | .unary _ op x => .unary t op x

/-- Embedding of `create_literal_node` from `src/ast.c`. -/
def create_literal_node (value : String) (type : VarType) : Expr :=
  .literal type value

/-- Embedding of `create_identifier_node` from `src/ast.c`: the node is
created with `result_type = TYPE_UNKNOWN`. -/
def create_identifier_node (name : String) : Expr :=
  .ident .unknown name

/-- Embedding of `create_binary_expr_node` from `src/ast.c`. -/
def create_binary_expr_node (op : TokenType) (left right : Expr) : Expr :=
  .binary .unknown op left right

/-- Embedding of `create_unary_expr_node` from `src/ast.c`. -/
def create_unary_expr_node (op : TokenType) (operand : Expr) : Expr :=
  .unary .unknown op operand

/-- Embedding of `create_var_decl_node` from `src/ast.c`: the statement's
own `result_type` is the declared type. -/
def create_var_decl_node (var_type : VarType) (name : String) (value : Expr) : Stmt :=
  .varDecl var_type var_type name value

/-! ### Decimal rendering

`sprintf` with `%d` renders a number in decimal; `decRepr` is the
corresponding executable Lean function (structural in a fuel argument so
the kernel can evaluate it), together with an injectivity proof obtained
from a digit-valuation round trip. -/

/-- ASCII digit for a value below ten. -/
def digitChar (d : Nat) : Char := Char.ofNat (48 + d)

/-- Big-endian decimal digits of `n`, with explicit fuel. -/
def decCharsAux : Nat → Nat → List Char
  | 0, _ => []
  | fuel + 1, n =>
      if n < 10 then [digitChar n]
      else decCharsAux fuel (n / 10) ++ [digitChar (n % 10)]

/-- Decimal rendering of a natural number, as printed by `%d`. -/
def decRepr (n : Nat) : String := String.mk (decCharsAux (n + 1) n)

/-- Numeric value of an ASCII digit character. -/
def charVal (c : Char) : Nat := c.toNat - 48

/-- Valuation of a big-endian digit string, with accumulator. -/
def valCharsAux (a : Nat) (l : List Char) : Nat :=
  l.foldl (fun acc c => 10 * acc + charVal c) a

theorem valCharsAux_append (a : Nat) (l₁ l₂ : List Char) :
    valCharsAux a (l₁ ++ l₂) = valCharsAux (valCharsAux a l₁) l₂ := by
  simp [valCharsAux, List.foldl_append]

theorem charVal_digitChar (d : Nat) (hd : d < 10) : charVal (digitChar d) = d := by
  interval_cases d <;> decide

theorem valCharsAux_decCharsAux (fuel : Nat) :
    ∀ n a, n < 10 ^ fuel →
      valCharsAux a (decCharsAux fuel n) = a * 10 ^ (decCharsAux fuel n).length + n := by
  induction fuel with
  | zero =>
      intro n a hn
      simp [decCharsAux, valCharsAux] at hn ⊢
      omega
  | succ f ih =>
      intro n a hn
      by_cases h : n < 10
      · simp [decCharsAux, h, valCharsAux, charVal_digitChar n h]
        ring
      · have hdiv : n / 10 < 10 ^ f := by
          refine (Nat.div_lt_iff_lt_mul (show 0 < 10 by omega)).mpr ?_
          calc n < 10 ^ (f + 1) := hn
            _ = 10 ^ f * 10 := by ring
        rw [decCharsAux, if_neg h, valCharsAux_append, ih (n / 10) a hdiv]
        have hmod : n % 10 < 10 := Nat.mod_lt _ (by omega)
        simp [valCharsAux, charVal_digitChar _ hmod, List.length_append]
        have : n % 10 + 10 * (n / 10) = n := Nat.mod_add_div n 10
        ring_nf
        omega

theorem decRepr_injective : Function.Injective decRepr := by
  intro m n h
  have hm : m < 10 ^ (m + 1) := by
    calc m < 10 ^ m := Nat.lt_pow_self (by omega) m
      _ ≤ 10 ^ (m + 1) := Nat.pow_le_pow_right (by omega) (Nat.le_succ m)
  have hn : n < 10 ^ (n + 1) := by
    calc n < 10 ^ n := Nat.lt_pow_self (by omega) n
      _ ≤ 10 ^ (n + 1) := Nat.pow_le_pow_right (by omega) (Nat.le_succ n)
  have hdata : decCharsAux (m + 1) m = decCharsAux (n + 1) n := by
    have := congrArg String.data h
    simpa [decRepr] using this
  have h1 := valCharsAux_decCharsAux (m + 1) m 0 hm
  have h2 := valCharsAux_decCharsAux (n + 1) n 0 hn
  rw [hdata] at h1
  rw [h1] at h2
  omega

/-! ### Parser

Embedding of the latest parser revision (`src/unnamed/part_009`).  The C
parser pulls tokens from the lexer one at a time; here a token stream is a
`List Token` whose head is the parser's `current_token`.  A real lexer
keeps returning `TOKEN_EOF` once the input is exhausted, so the current
token of an empty list is an EOF token.  The mutual recursion of the C
functions is tied by passing the expression parser (`pe`) downward and by
an explicit fuel argument on every self-recursive function. -/

/-- Current token (`parser->current_token`). -/
def cur (toks : List Token) : Token := toks.headD ⟨.tokEof, ""⟩

/-- Embedding of `advance`. -/
def adv (toks : List Token) : List Token := toks.tail

/-- Parse errors: each corresponds to a `[Parser Error] ... exit(1)` site in
part_009; `outOfFuel` is the artefact of bounding the recursion and never
occurs in a successful run. -/
inductive PErr where
  | outOfFuel
  | expectedTypeKeyword (got : TokenType)
  | expected (want : TokenType) (got : TokenType)
  | unexpectedToken (got : TokenType)
  deriving DecidableEq

abbrev PResult := Except PErr (Expr × List Token)

/-- Character search used for float detection: `strchr(lexeme, '.')`. -/
def lexemeHasDot (lx : String) : Bool := lx.data.contains ('.')

/-- Embedding of `parse_factor` from part_009.  A number literal is typed
float exactly when its lexeme contains a dot (`strchr(lexeme, '.')`). -/
def parse_factor (pe : List Token → PResult) (toks : List Token) : PResult :=
  match (cur toks).type with
  | .tokNumber =>
      .ok (create_literal_node (cur toks).lexeme
        (if lexemeHasDot (cur toks).lexeme then .float else .int), adv toks)
  | .tokBoolLit => .ok (create_literal_node (cur toks).lexeme .bool, adv toks)
  | .tokCharLit => .ok (create_literal_node (cur toks).lexeme .char, adv toks)
  | .tokStringLit => .ok (create_literal_node (cur toks).lexeme .string, adv toks)
  | .tokIdentifier => .ok (create_identifier_node (cur toks).lexeme, adv toks)
  | .tokLparen => do
      let (e, t1) ← pe (adv toks)
      if (cur t1).type = .tokRparen then .ok (e, adv t1)
      else .error (.expected .tokRparen (cur t1).type)
  | t => .error (.unexpectedToken t)

/-- Embedding of `parse_unary` from part_009: a `!` chain, bottoming out in
`parse_factor`.  The created node keeps `result_type = TYPE_UNKNOWN`. -/
def parse_unary (pe : List Token → PResult) : Nat → List Token → PResult
  | 0, _ => .error .outOfFuel
  | fuel + 1, toks =>
      if (cur toks).type = .tokNot then do
        let (operand, t1) ← parse_unary pe fuel (adv toks)
        .ok (create_unary_expr_node .tokNot operand, t1)
      else parse_factor pe toks

/-- Operator set of the part_009 `parse_term` loop: all four arithmetic
operators share this single precedence tier. -/
def term_op (t : TokenType) : Bool :=
  t == .tokPlus || t == .tokMinus || t == .tokStar || t == .tokSlash

/-- The `while` loop of `parse_term`: left-associative folding with the
int/float promotion of part_009 lines 175 to 181 (both operand root types
are set to float when they differ, and the new node takes the promoted
right operand's type). -/
def parse_term_go (pe : List Token → PResult) : Nat → Expr → List Token → PResult
  | 0, _, _ => .error .outOfFuel
  | fuel + 1, node, toks =>
      if term_op (cur toks).type then do
        let op := (cur toks).type
        let (right, t1) ← parse_unary pe fuel (adv toks)
        let node1 := if node.rt ≠ right.rt then node.setRT .float else node
        let right1 := if node.rt ≠ right.rt then right.setRT .float else right
        parse_term_go pe fuel ((create_binary_expr_node op node1 right1).setRT right1.rt) t1
      else .ok (node, toks)

/-- Embedding of `parse_term` from part_009. -/
def parse_term (pe : List Token → PResult) (fuel : Nat) (toks : List Token) : PResult := do
  let (node, t1) ← parse_unary pe fuel toks
  parse_term_go pe fuel node t1

/-- Operator set of the `parse_comparison` loop. -/
def comparison_op (t : TokenType) : Bool :=
  t == .tokLt || t == .tokGt || t == .tokLeq || t == .tokGeq

/-- The `while` loop of `parse_comparison`: every created node is forced to
`result_type = TYPE_BOOL`. -/
def parse_comparison_go (pe : List Token → PResult) : Nat → Expr → List Token → PResult
  | 0, _, _ => .error .outOfFuel
  | fuel + 1, node, toks =>
      if comparison_op (cur toks).type then do
        let op := (cur toks).type
        let (right, t1) ← parse_term pe fuel (adv toks)
        parse_comparison_go pe fuel ((create_binary_expr_node op node right).setRT .bool) t1
      else .ok (node, toks)

/-- Embedding of `parse_comparison` from part_009. -/
def parse_comparison (pe : List Token → PResult) (fuel : Nat) (toks : List Token) : PResult := do
  let (node, t1) ← parse_term pe fuel toks
  parse_comparison_go pe fuel node t1

/-- Operator set of the `parse_equality` loop. -/
def equality_op (t : TokenType) : Bool :=
  t == .tokEq || t == .tokNeq

/-- The `while` loop of `parse_equality`; created nodes are bool. -/
def parse_equality_go (pe : List Token → PResult) : Nat → Expr → List Token → PResult
  | 0, _, _ => .error .outOfFuel
  | fuel + 1, node, toks =>
      if equality_op (cur toks).type then do
        let op := (cur toks).type
        let (right, t1) ← parse_comparison pe fuel (adv toks)
        parse_equality_go pe fuel ((create_binary_expr_node op node right).setRT .bool) t1
      else .ok (node, toks)

/-- Embedding of `parse_equality` from part_009. -/
def parse_equality (pe : List Token → PResult) (fuel : Nat) (toks : List Token) : PResult := do
  let (node, t1) ← parse_comparison pe fuel toks
  parse_equality_go pe fuel node t1

/-- The `while` loop of `parse_logical_and`; created nodes are bool. -/
def parse_logical_and_go (pe : List Token → PResult) : Nat → Expr → List Token → PResult
  | 0, _, _ => .error .outOfFuel
  | fuel + 1, node, toks =>
      if (cur toks).type = .tokAnd then do
        let (right, t1) ← parse_equality pe fuel (adv toks)
        parse_logical_and_go pe fuel ((create_binary_expr_node .tokAnd node right).setRT .bool) t1
      else .ok (node, toks)

/-- Embedding of `parse_logical_and` from part_009. -/
def parse_logical_and (pe : List Token → PResult) (fuel : Nat) (toks : List Token) : PResult := do
  let (node, t1) ← parse_equality pe fuel toks
  parse_logical_and_go pe fuel node t1

/-- The `while` loop of `parse_logical_xor`; created nodes are bool. -/
def parse_logical_xor_go (pe : List Token → PResult) : Nat → Expr → List Token → PResult
  | 0, _, _ => .error .outOfFuel
  | fuel + 1, node, toks =>
      if (cur toks).type = .tokXor then do
        let (right, t1) ← parse_logical_and pe fuel (adv toks)
        parse_logical_xor_go pe fuel ((create_binary_expr_node .tokXor node right).setRT .bool) t1
      else .ok (node, toks)

/-- Embedding of `parse_logical_xor` from part_009. -/
def parse_logical_xor (pe : List Token → PResult) (fuel : Nat) (toks : List Token) : PResult := do
  let (node, t1) ← parse_logical_and pe fuel toks
  parse_logical_xor_go pe fuel node t1

/-- The `while` loop of `parse_logical_or`; created nodes are bool. -/
def parse_logical_or_go (pe : List Token → PResult) : Nat → Expr → List Token → PResult
  | 0, _, _ => .error .outOfFuel
  | fuel + 1, node, toks =>
      if (cur toks).type = .tokOr then do
        let (right, t1) ← parse_logical_xor pe fuel (adv toks)
        parse_logical_or_go pe fuel ((create_binary_expr_node .tokOr node right).setRT .bool) t1
      else .ok (node, toks)

/-- Embedding of `parse_logical_or` from part_009. -/
def parse_logical_or (pe : List Token → PResult) (fuel : Nat) (toks : List Token) : PResult := do
  let (node, t1) ← parse_logical_xor pe fuel toks
  parse_logical_or_go pe fuel node t1

/-- Embedding of `parse_expression` from part_009: the whole cascade, tied
through the fuel so that a parenthesised factor re-enters the cascade. -/
def parse_expression : Nat → List Token → PResult
  | 0, _ => .error .outOfFuel
  | fuel + 1, toks => parse_logical_or (fun t => parse_expression fuel t) fuel toks

/-- Type keyword dispatch at the top of `parse_var_decl` (the C `switch`). -/
def dtOfToken : TokenType → Option VarType
  | .tokInt => some .int
  | .tokFloat => some .float
  | .tokBool => some .bool
  | .tokChar => some .char
  | .tokString => some .string
  | _ => none

/-- Non-fatal diagnostics printed by the parser (`[Parser Warning] ...`). -/
inductive Warning where
  | typeMismatch (name : String) (declared : VarType) (assigned : VarType)
  deriving DecidableEq

/-- Embedding of `parse_var_decl` from part_009 (lines 52 to 100): declared
type from the keyword, identifier, `=`, initializer expression, the bool
forcing and bool-to-int coercion of lines 82 to 88, the non-fatal mismatch
warning of lines 90 to 94, and the closing semicolon. -/
def parse_var_decl (fuel : Nat) (toks : List Token) :
    Except PErr (Stmt × List Token × List Warning) :=
  match dtOfToken (cur toks).type with
  | none => .error (.expectedTypeKeyword (cur toks).type)
  | some var_type =>
      let t1 := adv toks
      if (cur t1).type = .tokIdentifier then
        let name := (cur t1).lexeme
        let t2 := adv t1
        if (cur t2).type = .tokAssign then do
          let (value, t4) ← parse_expression fuel (adv t2)
          let value1 :=
            if var_type = .bool then value.setRT .bool
            else if (var_type = .int ∨ var_type = .float) ∧ value.rt = .bool then
              value.setRT .int
            else value
          let warns :=
            if value1.rt ≠ var_type then [Warning.typeMismatch name var_type value1.rt]
            else []
          if (cur t4).type = .tokSemicolon then
            .ok (create_var_decl_node var_type name value1, adv t4, warns)
          else .error (.expected .tokSemicolon (cur t4).type)
        else .error (.expected .tokAssign (cur t2).type)
      else .error (.expected .tokIdentifier (cur t1).type)

/-- The `while` loop of `parse_program`: declarations until `TOKEN_EOF`. -/
def parse_program_go : Nat → List Token → Except PErr (List Stmt × List Token × List Warning)
  | 0, _ => .error .outOfFuel
  | fuel + 1, toks =>
      if (cur toks).type = .tokEof then .ok ([], toks, [])
      else do
        let (s, t1, w1) ← parse_var_decl fuel toks
        let (rest, t2, w2) ← parse_program_go fuel t1
        .ok (s :: rest, t2, w1 ++ w2)

/-- Embedding of `parse_program` from part_009: the linked `next` chain is
returned as a `List Stmt`, together with the accumulated warnings. -/
def parse_program (fuel : Nat) (toks : List Token) :
    Except PErr (List Stmt × List Token × List Warning) :=
  parse_program_go fuel toks

/-! ### Symbol table

Embedding of `symbol.c` (part_011): a linked list searched head first, so
the most recently added binding wins. -/

/-- Embedding of `Symbol` from `include/symbol.h`. -/
structure Symbol where
  name : String
  type : VarType
  deriving DecidableEq

/-- Embedding of `add_symbol`: prepend, newest first. -/
def add_symbol (table : List Symbol) (name : String) (type : VarType) : List Symbol :=
  ⟨name, type⟩ :: table

/-- Embedding of `lookup_symbol` from part_011: head-first linear search. -/
def lookup_symbol (table : List Symbol) (name : String) : Option Symbol :=
  table.find? (fun s => s.name == name)

/-! ### Literal table

Embedding of the static literal table shared by both code-generator
revisions (`static LiteralEntry *literals` and `static int
literal_counter`). -/

/-- Embedding of `LiteralEntry` (without the intrusive `next` pointer). -/
structure LiteralEntry where
  label : String
  value : String
  type : VarType
  deriving DecidableEq

/-- The static state backing the literal table: entries newest first (the C
code prepends) plus the static counter `literal_counter`. -/
structure LitState where
  entries : List LiteralEntry
  counter : Nat
  deriving DecidableEq

/-- Label of the n-th collected literal, `sprintf("L_literal_%d", n)`. -/
def mkLiteralLabel (n : Nat) : String := "L_literal_" ++ decRepr n

/-- Embedding of `add_literal`: return unchanged if an entry with the same
`(value, type)` pair exists, else prepend a new entry labelled with the
post-incremented counter. -/
def add_literal (value : String) (type : VarType) (st : LitState) : LitState :=
  if st.entries.any (fun l => l.value == value && l.type == type) then st
  else ⟨⟨mkLiteralLabel st.counter, value, type⟩ :: st.entries, st.counter + 1⟩

/-- Codegen errors: the `exit(1)` sites of the code generators, plus the
fuel artefact `depthExceeded` for the bounded nesting recursion of the
part_006 revision (never hit at adequate fuel). -/
inductive CgErr where
  | literalNotFound (value : String)
  | undefinedVariable (name : String)
  | depthExceeded
  deriving DecidableEq

/-- Embedding of `get_literal_label`: linear search by `(value, type)`,
fatal (`[Codegen Error] Literal not found`) when absent. -/
def get_literal_label (entries : List LiteralEntry) (value : String) (type : VarType) :
    Except CgErr String :=
  match entries.find? (fun l => l.value == value && l.type == type) with
  | some l => .ok l.label
  | none => .error (.literalNotFound value)

/-- Literal types that receive static storage: the test at part_006 lines
64 and 65 (`TYPE_FLOAT || TYPE_BOOL || TYPE_CHAR || TYPE_STRING`). -/
def storable (t : VarType) : Bool :=
  t == .float || t == .bool || t == .char || t == .string

/-- Expression part of `collect_literals` from part_006 (lines 57 to 89):
literals of storable type are registered; binary descends left then
right; unary descends into the operand; identifiers contribute nothing. -/
def CodegenIf.collect_expr : Expr → LitState → LitState
  | .literal rt v, st => if storable rt then add_literal v rt st else st
  | .ident _ _, st => st
  | .binary _ _ l r, st => CodegenIf.collect_expr r (CodegenIf.collect_expr l st)
  | .unary _ _ e, st => CodegenIf.collect_expr e st

mutual

/-- Statement case of `collect_literals` from part_006: a declaration
descends into its initializer, an if-statement into condition, then-branch
and else-branch (`collect_literals(node->if_statement.else_branch)` on a
`NULL` branch is a no-op). -/
def CodegenIf.collect_stmt : Stmt → LitState → LitState
  | .varDecl _ _ _ value, st => CodegenIf.collect_expr value st
  | .ifStmt _ cond thenB elseB, st =>
      let st1 := CodegenIf.collect_expr cond st
      let st2 := CodegenIf.collect_literals thenB st1
      match elseB with
      | some els => CodegenIf.collect_literals els st2
      | none => st2

/-- The `next`-chain walk of `collect_literals` from part_006. -/
def CodegenIf.collect_literals : List Stmt → LitState → LitState
  | [], st => st
  | s :: rest, st => CodegenIf.collect_literals rest (CodegenIf.collect_stmt s st)

end

/-- Expression part of `collect_literals` from `src/codegen.c` (lines 48 to
66): this earlier revision descends into literals, binary operands and
declaration initializers only; unary operands are not visited. -/
def Codegen.collect_expr : Expr → LitState → LitState
  | .literal rt v, st => if storable rt then add_literal v rt st else st
  | .binary _ _ l r, st => Codegen.collect_expr r (Codegen.collect_expr l st)
  | _, st => st

/-- Statement part of `collect_literals` from `src/codegen.c`: only
declarations are entered; other node kinds just continue along `next`. -/
def Codegen.collect_literals : List Stmt → LitState → LitState
  | [], st => st
  | .varDecl _ _ _ value :: rest, st =>
      Codegen.collect_literals rest (Codegen.collect_expr value st)
  | .ifStmt _ _ _ _ :: rest, st => Codegen.collect_literals rest st

/-! ### Emitted assembly

Each `fprintf` of the code generators emits one of the following lines.
Consecutive `setcc al` and `movzx rax, al` lines are modelled as one fused
instruction, as is `cqo` followed by `idiv rbx`; this grouping only joins
lines that the C code always emits adjacently. -/

/-- Instruction lines of the emitted text section. -/
inductive Instr where
  | movRaxImm (text : String)
  | movRaxMem (sym : String)
  | movMemRax (sym : String)
  | leaRaxMem (sym : String)
  | movsdXmm0Mem (sym : String)
  | movsdMemXmm0 (sym : String)
  | movqRaxXmm0
  | pushRax
  | popRbx
  | addRaxRbx
  | subRaxRbx
  | imulRaxRbx
  | cqoIdivRbx
  | andRaxRbx
  | orRaxRbx
  | xorRaxRbx
  | cmpRaxRbx
  | cmpRaxZero
  | seteZx
  | setneZx
  | setlZx
  | setleZx
  | setgZx
  | setgeZx
  | je (target : String)
  | jmp (target : String)
  | ret
  deriving DecidableEq

/-- One emitted line of assembly text. -/
inductive Line where
  | directive (text : String)
  | label (name : String)
  | dataQuad (name : String) (value : String)
  | dataDouble (name : String) (value : String)
  | dataByte (name : String) (value : String)
  | dataString (name : String) (value : String)
  | instr (i : Instr)
  | comment (text : String)
  deriving DecidableEq

/-- Embedding of `generate_literals_section` (identical in part_006 lines
188 to 210 and `src/codegen.c` lines 148 to 167): float literals become
`.double`, bool literals become `.quad 1` exactly when the text compares
equal to `"true"` and `.quad 0` otherwise, char literals `.byte`, string
literals `.string`; other types emit nothing. -/
def generate_literals_section (entries : List LiteralEntry) : List Line :=
  entries.filterMap fun lit =>
    match lit.type with
    | .float => some (.dataDouble lit.label lit.value)
    | .bool => some (.dataQuad lit.label (if lit.value == "true" then "1" else "0"))
    | .char => some (.dataByte lit.label lit.value)
    | .string => some (.dataString lit.label lit.value)
    | _ => none

/-- Embedding of `generate_data_section` from part_006 (lines 167 to 186)
and `src/codegen.c` (lines 132 to 146): for each top-level declaration,
add the symbol and emit a zero-initialized slot (`.double 0.0` for float,
`.quad 0` otherwise).  Returns the emitted lines and the symbol table. -/
def generate_data_section : List Stmt → List Symbol → List Line × List Symbol
  | [], syms => ([], syms)
  | .varDecl _ vt name _ :: rest, syms =>
      let syms1 := add_symbol syms name vt
      let line := if vt = .float then Line.dataDouble name ("0.0") else Line.dataQuad name ("0")
      let (ls, syms2) := generate_data_section rest syms1
      (line :: ls, syms2)
  | .ifStmt _ _ _ _ :: rest, syms => generate_data_section rest syms

/-- Instruction pattern emitted for a binary operator by both revisions of
`generate_expression` (part_006 lines 263 to 306, `src/codegen.c` lines
208 to 262); an unsupported operator emits the `; [unsupported binary op]`
comment. -/
def binop_lines (op : TokenType) : List Line :=
  match op with
  | .tokPlus => [.instr .addRaxRbx]
  | .tokMinus => [.instr .subRaxRbx]
  | .tokStar => [.instr .imulRaxRbx]
  | .tokSlash => [.instr .cqoIdivRbx]
  | .tokEq => [.instr .cmpRaxRbx, .instr .seteZx]
  | .tokNeq => [.instr .cmpRaxRbx, .instr .setneZx]
  | .tokLt => [.instr .cmpRaxRbx, .instr .setlZx]
  | .tokLeq => [.instr .cmpRaxRbx, .instr .setleZx]
  | .tokGt => [.instr .cmpRaxRbx, .instr .setgZx]
  | .tokGeq => [.instr .cmpRaxRbx, .instr .setgeZx]
  | .tokAnd => [.instr .andRaxRbx]
  | .tokOr => [.instr .orRaxRbx]
  | .tokXor => [.instr .xorRaxRbx]
  | _ => [.comment ("; [unsupported binary op]")]

/-- Embedding of `generate_expression` from part_006 (lines 212 to 322).
Note that this revision fetches `get_literal_label` unconditionally at the
top of the literal case (line 221), so a literal whose type was never
collected — any int literal — hits the fatal not-found exit; the final
else branch (immediate operand) is only reachable for a value that
happens to sit in the table under a non-storable type, which the
collector never produces.  Identifiers are looked up in the symbol table,
fatally if absent; a binary expression evaluates the right operand first,
pushes it, evaluates the left operand, pops into `rbx` and applies the
operator; a `!` unary appends the compare-set-extend sequence (any other
unary operator appends nothing in this revision). -/
def CodegenIf.generate_expression (entries : List LiteralEntry) (symbols : List Symbol) :
    Expr → Except CgErr (List Line)
  | .literal rt v => do
      let label ← get_literal_label entries v rt
      if rt = .float then .ok [.instr (.movsdXmm0Mem label)]
      else if rt = .bool ∨ rt = .char then .ok [.instr (.movRaxMem label)]
      else if rt = .string then .ok [.instr (.leaRaxMem label)]
      else .ok [.instr (.movRaxImm v)]
  | .ident _ name =>
      match lookup_symbol symbols name with
      | none => .error (.undefinedVariable name)
      | some sym =>
          if sym.type = .float then .ok [.instr (.movsdXmm0Mem name)]
          else .ok [.instr (.movRaxMem name)]
  | .binary _ op l r => do
      let cr ← CodegenIf.generate_expression entries symbols r
      let cl ← CodegenIf.generate_expression entries symbols l
      .ok (cr ++ [.instr .pushRax] ++ cl ++ [.instr .popRbx] ++ binop_lines op)
  | .unary _ op e => do
      let ce ← CodegenIf.generate_expression entries symbols e
      if op = .tokNot then
        .ok (ce ++ [.instr .cmpRaxZero, .instr .seteZx])
      else .ok ce

/-- Embedding of `generate_expression` from `src/codegen.c` (lines 169 to
281).  Unlike the part_006 revision, this one fetches the literal label
inside the float/bool/char/string branches only, so an int literal really
is emitted as an immediate operand; and a non-`!` unary operator appends
the `; [unsupported unary op]` comment line. -/
def Codegen.generate_expression (entries : List LiteralEntry) (symbols : List Symbol) :
    Expr → Except CgErr (List Line)
  | .literal rt v =>
      if rt = .float then do
        let label ← get_literal_label entries v .float
        .ok [.instr (.movsdXmm0Mem label)]
      else if rt = .bool ∨ rt = .char then do
        let label ← get_literal_label entries v rt
        .ok [.instr (.movRaxMem label)]
      else if rt = .string then do
        let label ← get_literal_label entries v .string
        .ok [.instr (.leaRaxMem label)]
      else .ok [.instr (.movRaxImm v)]
  | .ident _ name =>
      match lookup_symbol symbols name with
      | none => .error (.undefinedVariable name)
      | some sym =>
          if sym.type = .float then .ok [.instr (.movsdXmm0Mem name)]
          else .ok [.instr (.movRaxMem name)]
  | .binary _ op l r => do
      let cr ← Codegen.generate_expression entries symbols r
      let cl ← Codegen.generate_expression entries symbols l
      .ok (cr ++ [.instr .pushRax] ++ cl ++ [.instr .popRbx] ++ binop_lines op)
  | .unary _ op e => do
      let ce ← Codegen.generate_expression entries symbols e
      if op = .tokNot then
        .ok (ce ++ [.instr .cmpRaxZero, .instr .seteZx])
      else .ok (ce ++ [.comment ("; [unsupported unary op]")])

/-! ### The part_006 `generate_program` (the revision with if-statements)

This revision lowers a statement sequence inside `main` and re-invokes the
whole of `generate_program` on each if-branch.  The static globals
(`literals`, `literal_counter` and the function-local `static int
if_counter`) are threaded explicitly as `CGState`; the `while (literals)`
free loop at the end of `generate_program` empties the entry list (the
counter is a separate static and keeps its value).  The recursion into
branches is bounded by fuel, so the definition stays structurally
recursive; `depthExceeded` never occurs at fuel exceeding the nesting
depth. -/

/-- Global state of the part_006 generator: the literal table and the
static if-label counter. -/
structure CGState where
  lits : LitState
  ifCounter : Nat
  deriving DecidableEq

/-- Label `sprintf("L_if_true_%d", n)`. -/
def mkIfTrue (n : Nat) : String := "L_if_true_" ++ decRepr n

/-- Label `sprintf("L_if_else_%d", n)`. -/
def mkIfElse (n : Nat) : String := "L_if_else_" ++ decRepr n

/-- Label `sprintf("L_if_end_%d", n)`. -/
def mkIfEnd (n : Nat) : String := "L_if_end_" ++ decRepr n

/-- The statement loop of part_006 `generate_program` (lines 112 to 150),
parameterized by the recursive program generator `gp` used on if-branches.
A declaration evaluates its initializer and stores the accumulator (the
float store uses `movsd`); an if-statement evaluates its condition,
compares with zero, jumps to the else label (when an else branch exists)
or the end label, then emits the true label, the recursively generated
then-branch, a jump to the end label, the optional else label and branch,
and the end label. -/
def CodegenIf.gen_stmts
    (gp : List Stmt → CGState → Except CgErr (List Line × CGState))
    (symbols : List Symbol) : List Stmt → CGState → Except CgErr (List Line × CGState)
  | [], g => .ok ([], g)
  | .varDecl _ vt name value :: rest, g => do
      let code ← CodegenIf.generate_expression g.lits.entries symbols value
      let store :=
        if vt = .float then Line.instr (.movsdMemXmm0 name) else Line.instr (.movMemRax name)
      let (ls, g1) ← CodegenIf.gen_stmts gp symbols rest g
      .ok (code ++ [store] ++ ls, g1)
  | .ifStmt _ cond thenB elseB :: rest, g => do
      let labelNum := g.ifCounter
      let g0 : CGState := ⟨g.lits, g.ifCounter + 1⟩
      let condCode ← CodegenIf.generate_expression g0.lits.entries symbols cond
      let header := condCode ++
        [Line.instr .cmpRaxZero,
         Line.instr (.je (match elseB with
           | some _ => mkIfElse labelNum
           | none => mkIfEnd labelNum)),
         Line.label (mkIfTrue labelNum)]
      let (thenLines, g1) ← gp thenB g0
      match elseB with
      | some els => do
          let (elseLines, g2) ← gp els g1
          let (ls, g3) ← CodegenIf.gen_stmts gp symbols rest g2
          .ok (header ++ thenLines ++
               [Line.instr (.jmp (mkIfEnd labelNum)), Line.label (mkIfElse labelNum)] ++
               elseLines ++ [Line.label (mkIfEnd labelNum)] ++ ls, g3)
      | none => do
          let (ls, g3) ← CodegenIf.gen_stmts gp symbols rest g1
          .ok (header ++ thenLines ++
               [Line.instr (.jmp (mkIfEnd labelNum)), Line.label (mkIfEnd labelNum)] ++ ls, g3)

/-- Embedding of `generate_program` from part_006 (lines 95 to 165): it
collects literals into the static table, then emits the full prologue
(`.intel_syntax noprefix`, the `.rodata` literal section, the `.data`
variable section — building a fresh symbol table from `NULL` —, `.text`,
`.global main` and the `main` label), then the statement loop, then
`mov rax, 0` and `ret`, and finally frees the symbol table and the literal
entry list.  If-branches re-enter this whole function. -/
def CodegenIf.generate_program : Nat → List Stmt → CGState → Except CgErr (List Line × CGState)
  | 0, _, _ => .error .depthExceeded
  | fuel + 1, program, g => do
      let lits1 := CodegenIf.collect_literals program g.lits
      let litLines := generate_literals_section lits1.entries
      let (dataLines, symbols) := generate_data_section program []
      let (body, gEnd) ←
        CodegenIf.gen_stmts (fun p g2 => CodegenIf.generate_program fuel p g2)
          symbols program ⟨lits1, g.ifCounter⟩
      .ok ([.directive (".intel_syntax noprefix"), .directive (".section .rodata")]
            ++ litLines ++ [.directive (".data")] ++ dataLines
            ++ [.directive (".text"), .directive (".global main"), .label ("main")]
            ++ body ++ [.instr (.movRaxImm ("0")), .instr .ret],
           ⟨⟨[], gEnd.lits.counter⟩, gEnd.ifCounter⟩)

/-! ### The `src/codegen.c` `generate_program` (the revision built by
CMakeLists.txt) -/

/-- The statement loop of `src/codegen.c` `generate_program` (lines 93 to
106): only declarations emit code, and the loop tracks the last
declaration seen (`last_var_decl`). -/
def Codegen.gen_stmts (entries : List LiteralEntry) (symbols : List Symbol) :
    List Stmt → Except CgErr (List Line × Option (String × VarType))
  | [] => .ok ([], none)
  | .varDecl _ vt name value :: rest => do
      let code ← Codegen.generate_expression entries symbols value
      let store :=
        if vt = .float then Line.instr (.movsdMemXmm0 name) else Line.instr (.movMemRax name)
      let (ls, last) ← Codegen.gen_stmts entries symbols rest
      .ok (code ++ [store] ++ ls, some (last.getD (name, vt)))
  | .ifStmt _ _ _ _ :: rest => Codegen.gen_stmts entries symbols rest

/-- Embedding of `generate_program` from `src/codegen.c` (lines 74 to
130): collect literals, emit the prologue and both data sections, emit the
statement loop, then load the last declared variable into the accumulator
(for a float via `movsd` and `movq rax, xmm0`) or `mov rax, 0` when there
was no declaration, then `ret`; finally the symbol table and the literal
entry list are freed. -/
def Codegen.generate_program (program : List Stmt) (g : LitState) :
    Except CgErr (List Line × LitState) := do
  let lits1 := Codegen.collect_literals program g
  let litLines := generate_literals_section lits1.entries
  let ds := generate_data_section program []
  let dataLines := ds.1
  let symbols := ds.2
  let (body, last) ← Codegen.gen_stmts lits1.entries symbols program
  let finalLines :=
    match last with
    | some (name, vt) =>
        if vt = .float then [Line.instr (.movsdXmm0Mem name), Line.instr .movqRaxXmm0]
        else [Line.instr (.movRaxMem name)]
    | none => [Line.instr (.movRaxImm ("0"))]
  .ok ([.directive (".intel_syntax noprefix"), .directive (".section .rodata")]
        ++ litLines ++ [.directive (".data")] ++ dataLines
        ++ [.directive (".text"), .directive (".global main"), .label ("main")]
        ++ body ++ finalLines ++ [.instr .ret],
       ⟨[], lits1.counter⟩)

/-! ### Machine model

An executable sequential model of the integer fragment of the emitted
assembly.  Registers hold unbounded integers (64-bit wraparound is
immaterial to the claims below); `idiv` truncates toward zero
(`Int.tdiv`); a `cmp` stores its operand pair and the fused
`setcc al; movzx rax, al` reads it.  Floating instructions, address loads
and control-flow instructions leave the state unchanged — no theorem below
executes them. -/

/-- Machine state: accumulator, scratch register, last comparison pair,
stack and the `[rip + name]` memory cells (zero-initialized, matching the
`.quad 0` data section). -/
structure MachineState where
  rax : Int
  rbx : Int
  flagL : Int
  flagR : Int
  stack : List Int
  mem : String → Int

/-- Decimal value of an immediate operand's text (int literal lexemes are
digit strings). -/
def textInt (s : String) : Int := Int.ofNat (valCharsAux 0 s.data)

/-- Pointwise memory update. -/
def updateMem (m : String → Int) (x : String) (v : Int) : String → Int :=
  fun y => if y == x then v else m y

/-- Effect of one instruction. -/
def step (s : MachineState) : Instr → MachineState
  | .movRaxImm t => { s with rax := textInt t }
  | .movRaxMem x => { s with rax := s.mem x }
  | .movMemRax x => { s with mem := updateMem s.mem x s.rax }
  | .leaRaxMem _ => s
  | .movsdXmm0Mem _ => s
  | .movsdMemXmm0 _ => s
  | .movqRaxXmm0 => s
  | .pushRax => { s with stack := s.rax :: s.stack }
  | .popRbx => { s with rbx := s.stack.headD 0, stack := s.stack.tail }
  | .addRaxRbx => { s with rax := s.rax + s.rbx }
  | .subRaxRbx => { s with rax := s.rax - s.rbx }
  | .imulRaxRbx => { s with rax := s.rax * s.rbx }
  | .cqoIdivRbx => { s with rax := s.rax.tdiv s.rbx }
  | .andRaxRbx => { s with rax := Int.land s.rax s.rbx }
  | .orRaxRbx => { s with rax := Int.lor s.rax s.rbx }
  | .xorRaxRbx => { s with rax := Int.xor s.rax s.rbx }
  | .cmpRaxRbx => { s with flagL := s.rax, flagR := s.rbx }
  | .cmpRaxZero => { s with flagL := s.rax, flagR := 0 }
  | .seteZx => { s with rax := if s.flagL = s.flagR then 1 else 0 }
  | .setneZx => { s with rax := if s.flagL = s.flagR then 0 else 1 }
  | .setlZx => { s with rax := if s.flagL < s.flagR then 1 else 0 }
  | .setleZx => { s with rax := if s.flagL ≤ s.flagR then 1 else 0 }
  | .setgZx => { s with rax := if s.flagR < s.flagL then 1 else 0 }
  | .setgeZx => { s with rax := if s.flagR ≤ s.flagL then 1 else 0 }
  | .je _ => s
  | .jmp _ => s
  | .ret => s

/-- Effect of one emitted line: directives, labels, data lines and
comments do nothing at execution time. -/
def execLine (s : MachineState) : Line → MachineState
  | .instr i => step s i
  | _ => s

/-- Sequential execution of a line list. -/
def exec (lines : List Line) (s : MachineState) : MachineState :=
  lines.foldl execLine s

/-- Initial machine state: all registers and memory cells zero. -/
def initMachine : MachineState := ⟨0, 0, 0, 0, [], fun _ => 0⟩

/-- Reference arithmetic semantics, the comparison point for refinement
claims; it follows the specification's words: standard integer arithmetic,
division truncating toward zero, comparisons producing 0 or 1, logical
operators bitwise on the accumulator, logical not mapping zero to 1 and
everything else to 0.  An operator outside the emitted set yields the left
operand (matching that the emitted comment line leaves the accumulator
holding the left operand). -/
def spec_eval (env : String → Int) : Expr → Int
  | .literal _ v => textInt v
  | .ident _ x => env x
  | .binary _ op l r =>
      let a := spec_eval env l
      let b := spec_eval env r
      match op with
      | .tokPlus => a + b
      | .tokMinus => a - b
      | .tokStar => a * b
      | .tokSlash => a.tdiv b
      | .tokEq => if a = b then 1 else 0
      | .tokNeq => if a = b then 0 else 1
      | .tokLt => if a < b then 1 else 0
      | .tokLeq => if a ≤ b then 1 else 0
      | .tokGt => if b < a then 1 else 0
      | .tokGeq => if b ≤ a then 1 else 0
      | .tokAnd => Int.land a b
      | .tokOr => Int.lor a b
      | .tokXor => Int.xor a b
      | _ => a
  | .unary _ op e =>
      let v := spec_eval env e
      if op = .tokNot then (if v = 0 then 1 else 0) else v

/-! ### Literal-collector analysis

The collector is characterized against an independent description of the
claimed behaviour: the pre-order, left-to-right listing of storable
literals (`literal_walk`), de-duplicated keeping first encounters
(`dedup_first`), and labelled by consecutive counter values
(`label_entries`). -/

/-- Deduplication keys `(value, type)` of a table. -/
def litKeys (entries : List LiteralEntry) : List (String × VarType) :=
  entries.map (fun e => (e.value, e.type))

/-- Pre-order, left-to-right listing of the storable literals of an
expression (the order in which `collect_literals` visits them). -/
def literal_walk_expr : Expr → List (String × VarType)
  | .literal rt v => if storable rt then [(v, rt)] else []
  | .ident _ _ => []
  | .binary _ _ l r => literal_walk_expr l ++ literal_walk_expr r
  | .unary _ _ e => literal_walk_expr e

mutual

/-- Pre-order listing of the storable literals of one statement. -/
def literal_walk_stmt : Stmt → List (String × VarType)
  | .varDecl _ _ _ value => literal_walk_expr value
  | .ifStmt _ cond thenB elseB =>
      literal_walk_expr cond ++ literal_walk thenB ++
        (match elseB with
         | some els => literal_walk els
         | none => [])

/-- Pre-order listing of the storable literals of a statement sequence. -/
def literal_walk : List Stmt → List (String × VarType)
  | [] => []
  | s :: rest => literal_walk_stmt s ++ literal_walk rest

end

/-- One `add_literal` step on a key pair. -/
def add_key (st : LitState) (k : String × VarType) : LitState :=
  add_literal k.1 k.2 st

/-- First-encounter deduplication of a key list, given already-seen keys. -/
def dedup_first (seen : List (String × VarType)) :
    List (String × VarType) → List (String × VarType)
  | [] => []
  | k :: ks => if k ∈ seen then dedup_first seen ks else k :: dedup_first (k :: seen) ks

/-- Table entries for a key list, labelled by consecutive counter values
starting at `n`. -/
def label_entries (n : Nat) : List (String × VarType) → List LiteralEntry
  | [] => []
  | k :: ks => ⟨mkLiteralLabel n, k.1, k.2⟩ :: label_entries (n + 1) ks

theorem mkLiteralLabel_injective : Function.Injective mkLiteralLabel := by
  intro a b h
  apply decRepr_injective
  have hd := congrArg String.data h
  simp only [mkLiteralLabel, decRepr] at hd ⊢
  have : (String.mk (decCharsAux (a + 1) a)).data = (String.mk (decCharsAux (b + 1) b)).data := by
    have h2 : ("L_literal_" ++ String.mk (decCharsAux (a + 1) a)).data
        = ("L_literal_" ++ String.mk (decCharsAux (b + 1) b)).data := hd
    simp only [String.data_append] at h2
    simpa using List.append_cancel_left h2
  exact congrArg String.mk this

/-- The membership test inside `add_literal`, restated through `litKeys`. -/
theorem add_literal_any_iff (st : LitState) (v : String) (ty : VarType) :
    (st.entries.any (fun l => l.value == v && l.type == ty)) = true
      ↔ (v, ty) ∈ litKeys st.entries := by
  constructor
  · intro h
    obtain ⟨e, he, hbe⟩ := List.any_eq_true.mp h
    obtain ⟨hb1, hb2⟩ := (Bool.and_eq_true _ _).mp hbe
    exact List.mem_map.mpr ⟨e, he, by simp [beq_iff_eq.mp hb1, beq_iff_eq.mp hb2]⟩
  · intro h
    obtain ⟨e, he, hk⟩ := List.mem_map.mp h
    refine List.any_eq_true.mpr ⟨e, he, ?_⟩
    have h1 : e.value = v := congrArg Prod.fst hk
    have h2 : e.type = ty := congrArg Prod.snd hk
    simp [h1, h2]

theorem add_literal_of_mem {st : LitState} {v : String} {ty : VarType}
    (h : (v, ty) ∈ litKeys st.entries) : add_literal v ty st = st := by
  simp [add_literal, (add_literal_any_iff st v ty).mpr h]

theorem add_literal_of_not_mem {st : LitState} {v : String} {ty : VarType}
    (h : ¬ (v, ty) ∈ litKeys st.entries) :
    add_literal v ty st
      = ⟨⟨mkLiteralLabel st.counter, v, ty⟩ :: st.entries, st.counter + 1⟩ := by
  have : ¬ ((st.entries.any (fun l => l.value == v && l.type == ty)) = true) := by
    intro hc
    exact h ((add_literal_any_iff st v ty).mp hc)
  simp [add_literal, this]

/-- The expression collector is the fold of `add_literal` over the
pre-order literal walk. -/
theorem collect_expr_eq_foldl (e : Expr) (st : LitState) :
    CodegenIf.collect_expr e st = (literal_walk_expr e).foldl add_key st := by
  induction e generalizing st with
  | literal rt v =>
      by_cases h : storable rt = true <;>
        simp [CodegenIf.collect_expr, literal_walk_expr, h, add_key]
  | ident rt n => simp [CodegenIf.collect_expr, literal_walk_expr]
  | binary rt op l r ihl ihr =>
      simp [CodegenIf.collect_expr, literal_walk_expr, List.foldl_append, ihl, ihr]
  | unary rt op x ih => simp [CodegenIf.collect_expr, literal_walk_expr, ih]

mutual

/-- The statement collector is the fold of `add_literal` over the walk. -/
theorem collect_stmt_eq_foldl (s : Stmt) (st : LitState) :
    CodegenIf.collect_stmt s st = (literal_walk_stmt s).foldl add_key st := by
  match s with
  | .varDecl _ _ _ value =>
      simp [CodegenIf.collect_stmt, literal_walk_stmt, collect_expr_eq_foldl]
  | .ifStmt _ cond thenB elseB =>
      match elseB with
      | some els =>
          simp [CodegenIf.collect_stmt, literal_walk_stmt, List.foldl_append,
            collect_expr_eq_foldl, collect_literals_eq_foldl thenB,
            collect_literals_eq_foldl els]
      | none =>
          simp [CodegenIf.collect_stmt, literal_walk_stmt, List.foldl_append,
            collect_expr_eq_foldl, collect_literals_eq_foldl thenB]

/-- The sequence collector is the fold of `add_literal` over the walk. -/
theorem collect_literals_eq_foldl (l : List Stmt) (st : LitState) :
    CodegenIf.collect_literals l st = (literal_walk l).foldl add_key st := by
  match l with
  | [] => simp [CodegenIf.collect_literals, literal_walk]
  | s :: rest =>
      simp [CodegenIf.collect_literals, literal_walk, List.foldl_append,
        collect_stmt_eq_foldl s, collect_literals_eq_foldl rest]

end

/-- Folding `add_literal` prepends exactly the not-yet-seen keys, in
first-encounter order, labelled by consecutive counter values. -/
theorem foldl_add_key_char (ks : List (String × VarType)) :
    ∀ st : LitState,
      (ks.foldl add_key st).entries
          = (label_entries st.counter (dedup_first (litKeys st.entries) ks)).reverse
            ++ st.entries
        ∧ (ks.foldl add_key st).counter
          = st.counter + (dedup_first (litKeys st.entries) ks).length := by
  induction ks with
  | nil => intro st; simp [dedup_first, label_entries]
  | cons k ks ih =>
      intro st
      by_cases h : k ∈ litKeys st.entries
      · have hskip : add_key st k = st := by
          cases k with
          | mk v ty => exact add_literal_of_mem h
        simp only [List.foldl_cons, hskip, dedup_first, if_pos h]
        exact ih st
      · have hadd : add_key st k
            = ⟨⟨mkLiteralLabel st.counter, k.1, k.2⟩ :: st.entries, st.counter + 1⟩ := by
          cases k with
          | mk v ty => exact add_literal_of_not_mem h
        have hkeys : litKeys ((⟨mkLiteralLabel st.counter, k.1, k.2⟩ : LiteralEntry)
            :: st.entries) = k :: litKeys st.entries := by
          simp [litKeys]
        obtain ⟨h1, h2⟩ := ih ⟨⟨mkLiteralLabel st.counter, k.1, k.2⟩ :: st.entries,
          st.counter + 1⟩
        constructor
        · simp only [List.foldl_cons, hadd]
          rw [h1]
          simp only [hkeys, dedup_first, if_neg h, label_entries, List.reverse_cons,
            List.append_assoc]
          simp
        · simp only [List.foldl_cons, hadd]
          rw [h2]
          simp only [hkeys, dedup_first, if_neg h, label_entries, List.length_cons]
          omega

/-- Monotonicity: keys present in the table stay present under the fold. -/
theorem foldl_add_key_mono (ks : List (String × VarType)) :
    ∀ st : LitState, ∀ k, k ∈ litKeys st.entries
      → k ∈ litKeys ((ks.foldl add_key st).entries) := by
  induction ks with
  | nil => intro st k hk; simpa using hk
  | cons k0 ks ih =>
      intro st k hk
      by_cases h : k0 ∈ litKeys st.entries
      · have hskip : add_key st k0 = st := by
          cases k0 with
          | mk v ty => exact add_literal_of_mem h
        simpa [List.foldl_cons, hskip] using ih st k hk
      · have hadd : add_key st k0
            = ⟨⟨mkLiteralLabel st.counter, k0.1, k0.2⟩ :: st.entries, st.counter + 1⟩ := by
          cases k0 with
          | mk v ty => exact add_literal_of_not_mem h
        simp only [List.foldl_cons, hadd]
        refine ih _ k ?_
        simp [litKeys] at hk ⊢
        rcases hk with ⟨e, he, hkey⟩
        exact Or.inr ⟨e, he, hkey⟩

/-- Every folded key ends up in the table. -/
theorem foldl_add_key_adds (ks : List (String × VarType)) :
    ∀ st : LitState, ∀ k, k ∈ ks → k ∈ litKeys ((ks.foldl add_key st).entries) := by
  induction ks with
  | nil => intro st k hk; cases hk
  | cons k0 ks ih =>
      intro st k hk
      rcases List.mem_cons.mp hk with rfl | hk
      · have : k ∈ litKeys ((add_key st k).entries) := by
          by_cases h : k ∈ litKeys st.entries
          · cases k with
            | mk v ty => simpa [add_key, add_literal_of_mem h] using h
          · cases k with
            | mk v ty =>
                simp [add_key, add_literal_of_not_mem h, litKeys]
        simpa [List.foldl_cons] using foldl_add_key_mono ks (add_key st k) k this
      · simpa [List.foldl_cons] using ih (add_key st k0) k hk

/-- Folding keys that are all present already is the identity. -/
theorem foldl_add_key_id (ks : List (String × VarType)) :
    ∀ st : LitState, (∀ k ∈ ks, k ∈ litKeys st.entries) → ks.foldl add_key st = st := by
  induction ks with
  | nil => intro st _; rfl
  | cons k0 ks ih =>
      intro st h
      have hskip : add_key st k0 = st := by
        cases k0 with
        | mk v ty => exact add_literal_of_mem (h _ (List.mem_cons_self _ _))
      simp only [List.foldl_cons, hskip]
      exact ih st (fun k hk => h k (List.mem_cons_of_mem _ hk))

/-- Keys surviving deduplication come from the original list. -/
theorem dedup_first_subset (ks : List (String × VarType)) :
    ∀ seen k, k ∈ dedup_first seen ks → k ∈ ks := by
  induction ks with
  | nil => intro seen k hk; simp [dedup_first] at hk
  | cons k0 ks ih =>
      intro seen k hk
      by_cases h : k0 ∈ seen
      · simp only [dedup_first, if_pos h] at hk
        exact List.mem_cons_of_mem _ (ih seen k hk)
      · simp only [dedup_first, if_neg h] at hk
        rcases List.mem_cons.mp hk with rfl | hk
        · exact List.mem_cons_self _ _
        · exact List.mem_cons_of_mem _ (ih _ k hk)

/-- Keys of labelled entries come from the labelled list. -/
theorem label_entries_key_mem (ks : List (String × VarType)) :
    ∀ n e, e ∈ label_entries n ks → (e.value, e.type) ∈ ks := by
  induction ks with
  | nil => intro n e he; simp [label_entries] at he
  | cons k0 ks ih =>
      intro n e he
      simp only [label_entries, List.mem_cons] at he
      rcases he with rfl | he
      · exact List.mem_cons_self _ _
      · exact List.mem_cons_of_mem _ (ih (n + 1) e he)

/-- Every label in `label_entries n ks` is `mkLiteralLabel m` with `m ≥ n`. -/
theorem label_entries_label_ge (ks : List (String × VarType)) :
    ∀ n e, e ∈ label_entries n ks → ∃ m, n ≤ m ∧ e.label = mkLiteralLabel m := by
  induction ks with
  | nil => intro n e he; simp [label_entries] at he
  | cons k0 ks ih =>
      intro n e he
      simp only [label_entries, List.mem_cons] at he
      rcases he with rfl | he
      · exact ⟨n, le_refl n, rfl⟩
      · obtain ⟨m, hm, he⟩ := ih (n + 1) e he
        exact ⟨m, by omega, he⟩

/-- Two labelled entries with the same label are the same entry. -/
theorem label_entries_label_inj (ks : List (String × VarType)) :
    ∀ n e₁ e₂, e₁ ∈ label_entries n ks → e₂ ∈ label_entries n ks
      → e₁.label = e₂.label → e₁ = e₂ := by
  induction ks with
  | nil => intro n e₁ e₂ h1; simp [label_entries] at h1
  | cons k0 ks ih =>
      intro n e₁ e₂ h1 h2 hl
      simp only [label_entries, List.mem_cons] at h1 h2
      rcases h1 with rfl | h1 <;> rcases h2 with rfl | h2
      · rfl
      · obtain ⟨m, hm, hlab⟩ := label_entries_label_ge ks (n + 1) e₂ h2
        rw [hlab] at hl
        have := mkLiteralLabel_injective hl
        omega
      · obtain ⟨m, hm, hlab⟩ := label_entries_label_ge ks (n + 1) e₁ h1
        rw [hlab] at hl
        have := mkLiteralLabel_injective hl.symm
        omega
      · exact ih (n + 1) e₁ e₂ h1 h2 hl

/-- Walked literal keys all have storable type. -/
theorem literal_walk_expr_storable (e : Expr) :
    ∀ k ∈ literal_walk_expr e, storable k.2 = true := by
  induction e with
  | literal rt v =>
      intro k hk
      by_cases h : storable rt = true
      · simp only [literal_walk_expr, if_pos h, List.mem_singleton] at hk
        subst hk
        exact h
      · simp [literal_walk_expr, h] at hk
  | ident rt n => intro k hk; simp [literal_walk_expr] at hk
  | binary rt op l r ihl ihr =>
      intro k hk
      simp only [literal_walk_expr, List.mem_append] at hk
      rcases hk with hk | hk
      · exact ihl k hk
      · exact ihr k hk
  | unary rt op x ih => intro k hk; exact ih k hk

mutual

/-- Walked literal keys of one statement all have storable type. -/
theorem literal_walk_stmt_storable (s : Stmt) :
    ∀ k ∈ literal_walk_stmt s, storable k.2 = true := by
  match s with
  | .varDecl _ _ _ value =>
      intro k hk
      exact literal_walk_expr_storable value k hk
  | .ifStmt _ cond thenB elseB =>
      intro k hk
      match elseB with
      | some els =>
          simp only [literal_walk_stmt, List.mem_append] at hk
          rcases hk with (hk | hk) | hk
          · exact literal_walk_expr_storable cond k hk
          · exact literal_walk_storable thenB k hk
          · exact literal_walk_storable els k hk
      | none =>
          simp only [literal_walk_stmt, List.mem_append] at hk
          rcases hk with (hk | hk) | hk
          · exact literal_walk_expr_storable cond k hk
          · exact literal_walk_storable thenB k hk
          · simp at hk

/-- Walked literal keys of a sequence all have storable type. -/
theorem literal_walk_storable (l : List Stmt) :
    ∀ k ∈ literal_walk l, storable k.2 = true := by
  match l with
  | [] => intro k hk; simp [literal_walk] at hk
  | s :: rest =>
      intro k hk
      simp only [literal_walk, List.mem_append] at hk
      rcases hk with hk | hk
      · exact literal_walk_stmt_storable s k hk
      · exact literal_walk_storable rest k hk

end

/-! ### Machine lemmas and the integer fragment -/

theorem exec_append (a b : List Line) (s : MachineState) :
    exec (a ++ b) s = exec b (exec a s) := by
  simp [exec, List.foldl_append]

theorem exec_nil (s : MachineState) : exec [] s = s := rfl

theorem exec_cons (l : Line) (ls : List Line) (s : MachineState) :
    exec (l :: ls) s = exec ls (execLine s l) := rfl

/-- Lines without execution effect (directives, labels, data, comments). -/
def pureLine : Line → Bool
  | .instr _ => false
  | _ => true

theorem exec_pure (ls : List Line) (h : ls.all pureLine = true) (s : MachineState) :
    exec ls s = s := by
  induction ls with
  | nil => rfl
  | cons l ls ih =>
      simp only [List.all_cons, Bool.and_eq_true] at h
      have hl : execLine s l = s := by
        cases l <;> simp [pureLine] at h ⊢ <;> rfl
      calc exec (l :: ls) s = exec ls (execLine s l) := rfl
        _ = exec ls s := by rw [hl]
        _ = s := ih h.2

theorem generate_literals_section_pure (entries : List LiteralEntry) :
    (generate_literals_section entries).all pureLine = true := by
  induction entries with
  | nil => rfl
  | cons e entries ih =>
      cases h : e.type <;>
        simp [generate_literals_section, List.filterMap_cons, h, pureLine] at ih ⊢ <;>
        exact ih

theorem generate_data_section_pure (prog : List Stmt) :
    ∀ syms, ((generate_data_section prog syms).1).all pureLine = true := by
  induction prog with
  | nil => intro syms; rfl
  | cons s rest ih =>
      intro syms
      cases s with
      | varDecl rt vt name value =>
          by_cases h : vt = .float <;>
            simp [generate_data_section, h, pureLine, ih]
      | ifStmt rt cond thenB elseB => simp [generate_data_section, ih]

/-- Binary operators that have an emitted instruction sequence. -/
def binop_supported (op : TokenType) : Bool :=
  match op with
  | .tokPlus | .tokMinus | .tokStar | .tokSlash
  | .tokEq | .tokNeq | .tokLt | .tokLeq | .tokGt | .tokGeq
  | .tokAnd | .tokOr | .tokXor => true
  | _ => false

/-- The integer fragment of expressions, the formal reading of the claims'
"well-formed" input: literals typed int (hence emitted as immediates),
identifiers drawn from the declared names, supported binary operators and
logical-not unaries. -/
def int_expr (decl : List String) : Expr → Bool
  | .literal rt _ => rt == .int
  | .ident _ x => decl.contains x
  | .binary _ op l r => binop_supported op && int_expr decl l && int_expr decl r
  | .unary _ op e => (op == .tokNot) && int_expr decl e

/-- Adequacy of a symbol table for the integer fragment: every declared
name resolves to an int symbol of that name. -/
abbrev SymsOk (symbols : List Symbol) (decl : List String) : Prop :=
  ∀ x ∈ decl, lookup_symbol symbols x = some ⟨x, .int⟩

/-- Compiled expressions of the integer fragment compute their reference
semantics: generation succeeds, and executing the emitted code from any
state whose memory equals `env` leaves `spec_eval env e` in the
accumulator while preserving the stack and the memory. -/
theorem generate_expression_correct (entries : List LiteralEntry)
    (symbols : List Symbol) (decl : List String) (hsym : SymsOk symbols decl) :
    ∀ e : Expr, int_expr decl e = true →
      ∀ env : String → Int, ∀ s : MachineState, s.mem = env →
        ∃ code, Codegen.generate_expression entries symbols e = .ok code
          ∧ (exec code s).rax = spec_eval env e
          ∧ (exec code s).stack = s.stack
          ∧ (exec code s).mem = s.mem := by
  intro e
  induction e with
  | literal rt v =>
      intro h env s hmem
      have hrt : rt = VarType.int := by
        simpa [int_expr] using h
      subst hrt
      refine ⟨[Line.instr (.movRaxImm v)], ?_, ?_, ?_, ?_⟩ <;>
        simp [Codegen.generate_expression, storable, exec, execLine, step, spec_eval, hmem]
  | ident rt x =>
      intro h env s hmem
      have hx : x ∈ decl := by
        simpa [int_expr, List.contains] using h
      have hlook := hsym x hx
      refine ⟨[Line.instr (.movRaxMem x)], ?_, ?_, ?_, ?_⟩ <;>
        simp [Codegen.generate_expression, hlook, exec, execLine, step, spec_eval, hmem]
  | binary rt op l r ihl ihr =>
      intro h env s hmem
      simp only [int_expr, Bool.and_eq_true] at h
      obtain ⟨⟨hop, hl⟩, hr⟩ := h
      obtain ⟨cr, hgr, hrax_r, hstk_r, hmem_r⟩ := ihr hr env s hmem
      set s1 := exec cr s with hs1
      set s2 := execLine s1 (Line.instr .pushRax) with hs2
      have hs2m : s2.mem = env := by
        simp [hs2, execLine, step, hmem_r, hmem]
      obtain ⟨cl, hgl, hrax_l, hstk_l, hmem_l⟩ := ihl hl env s2 hs2m
      set s3 := exec cl s2 with hs3
      set s4 := execLine s3 (Line.instr .popRbx) with hs4
      have hs4rax : s4.rax = spec_eval env l := by
        simp [hs4, execLine, step, hrax_l]
      have hs4rbx : s4.rbx = spec_eval env r := by
        simp [hs4, execLine, step, hstk_l, hs2, execLine, step, hrax_r]
      have hs4stk : s4.stack = s.stack := by
        simp [hs4, execLine, step, hstk_l, hs2, execLine, step, hstk_r]
      have hs4mem : s4.mem = s.mem := by
        simp [hs4, execLine, step, hmem_l, hs2m, hmem]
      refine ⟨cr ++ [Line.instr .pushRax] ++ cl ++ [Line.instr .popRbx] ++ binop_lines op,
        ?_, ?_⟩
      · simp only [Codegen.generate_expression, hgr, hgl]
        rfl
      · have hsplit :
            exec (cr ++ [Line.instr .pushRax] ++ cl ++ [Line.instr .popRbx]
              ++ binop_lines op) s = exec (binop_lines op) s4 := by
          simp only [exec_append]
          have h1 : exec [Line.instr .pushRax] s1 = s2 := rfl
          have h2 : exec [Line.instr .popRbx] s3 = s4 := rfl
          rw [← hs1, h1, ← hs3, h2]
        rw [hsplit]
        cases op <;> simp [binop_supported] at hop <;>
          simp [binop_lines, exec, execLine, step, spec_eval, hs4rax, hs4rbx, hs4stk,
            hs4mem, hmem]
  | unary rt op x ih =>
      intro h env s hmem
      simp only [int_expr, Bool.and_eq_true, beq_iff_eq] at h
      obtain ⟨hop, hx⟩ := h
      subst hop
      obtain ⟨cx, hgx, hrax_x, hstk_x, hmem_x⟩ := ih hx env s hmem
      refine ⟨cx ++ [Line.instr .cmpRaxZero, Line.instr .seteZx], ?_, ?_, ?_, ?_⟩
      · simp only [Codegen.generate_expression, hgx]
        rfl
      · rw [exec_append]
        simp only [exec_cons, exec_nil, execLine, step]
        simp [hrax_x, spec_eval]
      · rw [exec_append]
        simp only [exec_cons, exec_nil, execLine, step]
        simpa using hstk_x
      · rw [exec_append]
        simp only [exec_cons, exec_nil, execLine, step]
        simpa using hmem_x

/-! ### Program-level correctness of the `src/codegen.c` generator -/

/-- Declared names of a statement sequence, in order. -/
def declNames : List Stmt → List String
  | [] => []
  | .varDecl _ _ name _ :: rest => name :: declNames rest
  | .ifStmt _ _ _ _ :: rest => declNames rest

/-- Statement sequences of the integer fragment over a declared-name
list: every statement is an int declaration whose initializer lies in the
integer expression fragment. -/
def int_stmts (decl : List String) (stmts : List Stmt) : Bool :=
  stmts.all fun s =>
    match s with
    | .varDecl _ vt _ value => (vt == .int) && int_expr decl value
    | .ifStmt _ _ _ _ => false

/-- Programs of the integer fragment.  Identifiers may refer to any
declared name of the program: the generator builds the complete data
section — and with it the complete symbol table — before emitting any
statement code, and every cell is zero-initialized. -/
def int_program (prog : List Stmt) : Bool :=
  int_stmts (declNames prog) prog

/-- Reference program semantics following the specification: each
declaration updates its variable's cell with the value of its initializer
under the environment built so far. -/
def spec_env_from (env : String → Int) : List Stmt → (String → Int)
  | [] => env
  | .varDecl _ _ name value :: rest =>
      spec_env_from (updateMem env name (spec_eval env value)) rest
  | .ifStmt _ _ _ _ :: rest => spec_env_from env rest

/-- The last declaration of a sequence (name and declared type), matching
the `last_var_decl` tracking of the `src/codegen.c` statement loop. -/
def last_var : List Stmt → Option (String × VarType)
  | [] => none
  | .varDecl _ vt name _ :: rest => some ((last_var rest).getD (name, vt))
  | .ifStmt _ _ _ _ :: rest => last_var rest

/-- The specification's program result: the final value of the last
declared variable, or zero when there is no declaration. -/
def last_var_value (prog : List Stmt) : Int :=
  match last_var prog with
  | some (name, _) => spec_env_from (fun _ => 0) prog name
  | none => 0

theorem generate_data_section_lookup_not_mem (prog : List Stmt) :
    ∀ syms0 x, x ∉ declNames prog →
      lookup_symbol (generate_data_section prog syms0).2 x = lookup_symbol syms0 x := by
  induction prog with
  | nil => intro syms0 x _; rfl
  | cons s rest ih =>
      intro syms0 x hx
      cases s with
      | varDecl rt vt name value =>
          simp only [declNames, List.mem_cons, not_or] at hx
          obtain ⟨hne, hx⟩ := hx
          have hbeq : (name == x) = false := by
            simp [Ne.symm hne]
          simp only [generate_data_section]
          rw [ih (add_symbol syms0 name vt) x hx]
          simp [lookup_symbol, add_symbol, List.find?, hbeq]
      | ifStmt rt cond thenB elseB =>
          simp only [declNames] at hx
          simpa [generate_data_section] using ih syms0 x hx

theorem generate_data_section_lookup_mem (prog : List Stmt) :
    ∀ syms0 x decl, int_stmts decl prog = true → x ∈ declNames prog →
      lookup_symbol (generate_data_section prog syms0).2 x = some ⟨x, .int⟩ := by
  induction prog with
  | nil => intro syms0 x decl _ hx; simp [declNames] at hx
  | cons s rest ih =>
      intro syms0 x decl hall hx
      cases s with
      | varDecl rt vt name value =>
          simp only [int_stmts, List.all_cons, Bool.and_eq_true, beq_iff_eq] at hall
          obtain ⟨⟨hvt, _⟩, hrest⟩ := hall
          subst hvt
          simp only [declNames, List.mem_cons] at hx
          by_cases hmem : x ∈ declNames rest
          · simp only [generate_data_section]
            exact ih (add_symbol syms0 name .int) x decl hrest hmem
          · have hxe : x = name := by tauto
            subst hxe
            simp only [generate_data_section]
            rw [generate_data_section_lookup_not_mem rest _ x hmem]
            simp [lookup_symbol, add_symbol, List.find?]
      | ifStmt rt cond thenB elseB =>
          simp only [int_stmts, List.all_cons, Bool.and_eq_true] at hall
          exact absurd hall.1 (by simp)

theorem int_stmts_last_var_int (decl : List String) :
    ∀ stmts, int_stmts decl stmts = true →
      ∀ name vt, last_var stmts = some (name, vt) → vt = VarType.int := by
  intro stmts
  induction stmts with
  | nil => intro _ name vt h; simp [last_var] at h
  | cons s rest ih =>
      intro hall name vt h
      cases s with
      | varDecl rt0 vt0 name0 value0 =>
          simp only [int_stmts, List.all_cons, Bool.and_eq_true, beq_iff_eq] at hall
          obtain ⟨⟨hvt0, _⟩, hrest⟩ := hall
          simp only [last_var] at h
          cases hrest' : last_var rest with
          | none =>
              rw [hrest'] at h
              simp only [Option.getD_none, Option.some.injEq, Prod.mk.injEq] at h
              rw [← h.2]
              exact hvt0
          | some p =>
              rw [hrest'] at h
              simp only [Option.getD_some, Option.some.injEq] at h
              exact ih hrest name vt (by rw [hrest', h])
      | ifStmt rt0 cond thenB elseB =>
          simp only [int_stmts, List.all_cons, Bool.and_eq_true] at hall
          exact absurd hall.1 (by simp)

/-- The statement loop of `src/codegen.c` computes the reference program
semantics on the integer fragment: generation succeeds, memory ends up at
`spec_env_from env stmts`, the stack is preserved, and the tracked last
declaration is `last_var stmts`. -/
theorem gen_stmts_correct (entries : List LiteralEntry) (symbols : List Symbol)
    (decl : List String) (hsym : SymsOk symbols decl) :
    ∀ stmts, int_stmts decl stmts = true →
      ∀ env s, MachineState.mem s = env →
        ∃ body lastd, Codegen.gen_stmts entries symbols stmts = .ok (body, lastd)
          ∧ (exec body s).mem = spec_env_from env stmts
          ∧ (exec body s).stack = s.stack
          ∧ lastd = last_var stmts := by
  intro stmts
  induction stmts with
  | nil =>
      intro _ env s hmem
      exact ⟨[], none, rfl, by simpa [exec] using hmem, rfl, rfl⟩
  | cons s0 rest ih =>
      intro hall env s hmem
      cases s0 with
      | varDecl rt vt name value =>
          simp only [int_stmts, List.all_cons, Bool.and_eq_true, beq_iff_eq] at hall
          obtain ⟨⟨hvt, hvalue⟩, hrest⟩ := hall
          subst hvt
          obtain ⟨code, hgen, hrax, hstk, hmemc⟩ :=
            generate_expression_correct entries symbols decl hsym value hvalue env s hmem
          set s1 := exec code s with hs1
          set s2 := execLine s1 (Line.instr (.movMemRax name)) with hs2
          have hs2mem : s2.mem = updateMem env name (spec_eval env value) := by
            simp [hs2, execLine, step, hmemc, hmem, hrax]
          have hs2stk : s2.stack = s.stack := by
            simp [hs2, execLine, step, hstk]
          obtain ⟨body, lastd, hgen2, hmem2, hstk2, hlast2⟩ :=
            ih hrest (updateMem env name (spec_eval env value)) s2 hs2mem
          refine ⟨code ++ [Line.instr (.movMemRax name)] ++ body,
            some (lastd.getD (name, .int)), ?_, ?_, ?_, ?_⟩
          · simp only [Codegen.gen_stmts, hgen, hgen2]
            rfl
          · rw [exec_append, exec_append]
            have : exec [Line.instr (.movMemRax name)] s1 = s2 := rfl
            rw [← hs1, this, hmem2]
            simp [spec_env_from]
          · rw [exec_append, exec_append]
            have : exec [Line.instr (.movMemRax name)] s1 = s2 := rfl
            rw [← hs1, this, hstk2, hs2stk]
          · simp [last_var, hlast2]
      | ifStmt rt cond thenB elseB =>
          simp only [int_stmts, List.all_cons, Bool.and_eq_true] at hall
          exact absurd hall.1 (by simp)

theorem except_bind_ok {ε α β : Type} (a : α) (f : α → Except ε β) :
    ((Except.ok a : Except ε α) >>= f) = f a := rfl

theorem except_bind_error {ε α β : Type} (e : ε) (f : α → Except ε β) :
    ((Except.error e : Except ε α) >>= f) = Except.error e := rfl

/-- Executing the full emitted line list of `generate_program` comes down
to executing the statement body and the final lines: every prologue, data
and label line is execution-neutral and so is the trailing `ret`. -/
theorem exec_program_lines (litLines dataLines body final : List Line)
    (hlit : litLines.all pureLine = true) (hdata : dataLines.all pureLine = true)
    (s : MachineState) :
    exec ([.directive (".intel_syntax noprefix"), .directive (".section .rodata")]
      ++ litLines ++ [.directive (".data")] ++ dataLines
      ++ [.directive (".text"), .directive (".global main"), .label ("main")]
      ++ body ++ final ++ [.instr .ret]) s
    = exec final (exec body s) := by
  simp only [exec_append]
  rw [exec_pure _ hlit, exec_pure _ hdata]
  rfl

/-- Top-level correctness of the `src/codegen.c` `generate_program` on the
integer fragment: generation succeeds and, before the final `ret`, the
accumulator holds the final value of the last declared variable (zero when
there is no declaration). -/
theorem generate_program_int_correct (prog : List Stmt) (h : int_program prog = true) :
    ∃ lines st, Codegen.generate_program prog ⟨[], 0⟩ = .ok (lines, st)
      ∧ (exec lines initMachine).rax = last_var_value prog := by
  have hsym : SymsOk (generate_data_section prog []).2 (declNames prog) := by
    intro x hx
    exact generate_data_section_lookup_mem prog [] x (declNames prog) h hx
  obtain ⟨body, lastd, hgen, hmem2, hstk2, hlast⟩ :=
    gen_stmts_correct (Codegen.collect_literals prog ⟨[], 0⟩).entries
      (generate_data_section prog []).2 (declNames prog) hsym prog h
      (fun _ => 0) initMachine rfl
  simp only [Codegen.generate_program, hgen, except_bind_ok]
  refine ⟨_, _, rfl, ?_⟩
  rw [exec_program_lines _ _ _ _ (generate_literals_section_pure _)
    (generate_data_section_pure prog []) initMachine]
  rw [hlast]
  cases hl : last_var prog with
  | none =>
      simp only [last_var_value, hl]
      simp [exec, execLine, step]
      rfl
  | some p =>
      obtain ⟨name, vt⟩ := p
      have hvt : vt = VarType.int := int_stmts_last_var_int (declNames prog) prog h name vt hl
      subst hvt
      simp only [last_var_value, hl]
      have hif : (VarType.int = VarType.float) = False := by simp
      simp only [hif, if_false]
      simp only [exec_cons, exec_nil, execLine, step]
      exact congrFun hmem2 name

/-! ### Parser root-typing invariant

What the part_009 parser does and does not resolve: each
logical/equality/comparison production stamps `TYPE_BOOL` on the node it
returns, `parse_unary` returns `!` nodes with `TYPE_UNKNOWN`, and
arithmetic nodes take their (possibly promoted) right operand's type —
which can remain `TYPE_UNKNOWN`. -/

/-- Operators whose productions force `result_type = TYPE_BOOL`. -/
def bool_op (t : TokenType) : Bool :=
  t == .tokOr || t == .tokXor || t == .tokAnd || t == .tokEq || t == .tokNeq ||
    t == .tokLt || t == .tokGt || t == .tokLeq || t == .tokGeq

/-- Root typing discipline of every expression production's result: a
binary root with a logical/equality/comparison operator is bool-typed, and
a unary root carries `TYPE_UNKNOWN`. -/
def RootTyped : Expr → Prop
  | .binary rt op _ _ => bool_op op = true → rt = .bool
  | .unary rt _ _ => rt = .unknown
  | _ => True

theorem term_op_not_bool (t : TokenType) (h : term_op t = true) : bool_op t = false := by
  cases t <;> simp [term_op, bool_op] at h ⊢

theorem parse_factor_root (pe : List Token → PResult)
    (hpe : ∀ toks n r, pe toks = .ok (n, r) → RootTyped n) :
    ∀ toks n r, parse_factor pe toks = .ok (n, r) → RootTyped n := by
  intro toks n r h
  unfold parse_factor at h
  split at h
  · simp only [Except.ok.injEq, Prod.mk.injEq] at h
    rw [← h.1]
    simp [create_literal_node, RootTyped]
  · simp only [Except.ok.injEq, Prod.mk.injEq] at h
    rw [← h.1]
    simp [create_literal_node, RootTyped]
  · simp only [Except.ok.injEq, Prod.mk.injEq] at h
    rw [← h.1]
    simp [create_literal_node, RootTyped]
  · simp only [Except.ok.injEq, Prod.mk.injEq] at h
    rw [← h.1]
    simp [create_literal_node, RootTyped]
  · simp only [Except.ok.injEq, Prod.mk.injEq] at h
    rw [← h.1]
    simp [create_identifier_node, RootTyped]
  · rename_i heq
    cases hx : pe (adv toks) with
    | error e => rw [hx, except_bind_error] at h; simp at h
    | ok p =>
        obtain ⟨e0, t1⟩ := p
        rw [hx, except_bind_ok] at h
        have h2 : (if (cur t1).type = TokenType.tokRparen then Except.ok (e0, adv t1)
            else Except.error (PErr.expected TokenType.tokRparen (cur t1).type))
            = Except.ok (n, r) := h
        by_cases hrp : (cur t1).type = TokenType.tokRparen
        · rw [if_pos hrp] at h2
          simp only [Except.ok.injEq, Prod.mk.injEq] at h2
          rw [← h2.1]
          exact hpe (adv toks) e0 t1 hx
        · rw [if_neg hrp] at h2; simp at h2
  · simp at h

theorem parse_unary_root (pe : List Token → PResult)
    (hpe : ∀ toks n r, pe toks = .ok (n, r) → RootTyped n) :
    ∀ fuel toks n r, parse_unary pe fuel toks = .ok (n, r) → RootTyped n := by
  intro fuel
  induction fuel with
  | zero => intro toks n r h; simp [parse_unary] at h
  | succ f ih =>
      intro toks n r h
      unfold parse_unary at h
      by_cases hnot : (cur toks).type = TokenType.tokNot
      · rw [if_pos hnot] at h
        cases hx : parse_unary pe f (adv toks) with
        | error e => rw [hx, except_bind_error] at h; simp at h
        | ok p =>
            obtain ⟨operand, t1⟩ := p
            rw [hx, except_bind_ok] at h
            simp only [Except.ok.injEq, Prod.mk.injEq] at h
            rw [← h.1]
            simp [create_unary_expr_node, RootTyped]
      · rw [if_neg hnot] at h
        exact parse_factor_root pe hpe toks n r h

theorem parse_term_go_root (pe : List Token → PResult)
    (_hpe : ∀ toks n r, pe toks = .ok (n, r) → RootTyped n) :
    ∀ fuel node toks n r, RootTyped node →
      parse_term_go pe fuel node toks = .ok (n, r) → RootTyped n := by
  intro fuel
  induction fuel with
  | zero => intro node toks n r _ h; simp [parse_term_go] at h
  | succ f ih =>
      intro node toks n r hn h
      unfold parse_term_go at h
      by_cases hop : term_op (cur toks).type = true
      · rw [if_pos hop] at h
        cases hx : parse_unary pe f (adv toks) with
        | error e => rw [hx, except_bind_error] at h; simp at h
        | ok p =>
            obtain ⟨right, t1⟩ := p
            rw [hx, except_bind_ok] at h
            refine ih _ t1 n r ?_ h
            intro hb
            rw [term_op_not_bool _ hop] at hb
            cases hb
      · rw [if_neg hop] at h
        simp only [Except.ok.injEq, Prod.mk.injEq] at h
        rw [← h.1]
        exact hn

theorem parse_term_root (pe : List Token → PResult)
    (hpe : ∀ toks n r, pe toks = .ok (n, r) → RootTyped n) :
    ∀ fuel toks n r, parse_term pe fuel toks = .ok (n, r) → RootTyped n := by
  intro fuel toks n r h
  unfold parse_term at h
  cases hx : parse_unary pe fuel toks with
  | error e => rw [hx, except_bind_error] at h; simp at h
  | ok p =>
      obtain ⟨node, t1⟩ := p
      rw [hx, except_bind_ok] at h
      exact parse_term_go_root pe hpe fuel node t1 n r
        (parse_unary_root pe hpe fuel toks node t1 hx) h

theorem parse_comparison_go_root (pe : List Token → PResult) :
    ∀ fuel node toks n r, RootTyped node →
      parse_comparison_go pe fuel node toks = .ok (n, r) → RootTyped n := by
  intro fuel
  induction fuel with
  | zero => intro node toks n r _ h; simp [parse_comparison_go] at h
  | succ f ih =>
      intro node toks n r hn h
      unfold parse_comparison_go at h
      by_cases hop : comparison_op (cur toks).type = true
      · rw [if_pos hop] at h
        cases hx : parse_term pe f (adv toks) with
        | error e => rw [hx, except_bind_error] at h; simp at h
        | ok p =>
            obtain ⟨right, t1⟩ := p
            rw [hx, except_bind_ok] at h
            refine ih _ t1 n r ?_ h
            intro _
            rfl
      · rw [if_neg hop] at h
        simp only [Except.ok.injEq, Prod.mk.injEq] at h
        rw [← h.1]
        exact hn

theorem parse_comparison_root (pe : List Token → PResult)
    (hpe : ∀ toks n r, pe toks = .ok (n, r) → RootTyped n) :
    ∀ fuel toks n r, parse_comparison pe fuel toks = .ok (n, r) → RootTyped n := by
  intro fuel toks n r h
  unfold parse_comparison at h
  cases hx : parse_term pe fuel toks with
  | error e => rw [hx, except_bind_error] at h; simp at h
  | ok p =>
      obtain ⟨node, t1⟩ := p
      rw [hx, except_bind_ok] at h
      exact parse_comparison_go_root pe fuel node t1 n r
        (parse_term_root pe hpe fuel toks node t1 hx) h

theorem parse_equality_go_root (pe : List Token → PResult) :
    ∀ fuel node toks n r, RootTyped node →
      parse_equality_go pe fuel node toks = .ok (n, r) → RootTyped n := by
  intro fuel
  induction fuel with
  | zero => intro node toks n r _ h; simp [parse_equality_go] at h
  | succ f ih =>
      intro node toks n r hn h
      unfold parse_equality_go at h
      by_cases hop : equality_op (cur toks).type = true
      · rw [if_pos hop] at h
        cases hx : parse_comparison pe f (adv toks) with
        | error e => rw [hx, except_bind_error] at h; simp at h
        | ok p =>
            obtain ⟨right, t1⟩ := p
            rw [hx, except_bind_ok] at h
            refine ih _ t1 n r ?_ h
            intro _
            rfl
      · rw [if_neg hop] at h
        simp only [Except.ok.injEq, Prod.mk.injEq] at h
        rw [← h.1]
        exact hn

theorem parse_equality_root (pe : List Token → PResult)
    (hpe : ∀ toks n r, pe toks = .ok (n, r) → RootTyped n) :
    ∀ fuel toks n r, parse_equality pe fuel toks = .ok (n, r) → RootTyped n := by
  intro fuel toks n r h
  unfold parse_equality at h
  cases hx : parse_comparison pe fuel toks with
  | error e => rw [hx, except_bind_error] at h; simp at h
  | ok p =>
      obtain ⟨node, t1⟩ := p
      rw [hx, except_bind_ok] at h
      exact parse_equality_go_root pe fuel node t1 n r
        (parse_comparison_root pe hpe fuel toks node t1 hx) h

theorem parse_logical_and_go_root (pe : List Token → PResult) :
    ∀ fuel node toks n r, RootTyped node →
      parse_logical_and_go pe fuel node toks = .ok (n, r) → RootTyped n := by
  intro fuel
  induction fuel with
  | zero => intro node toks n r _ h; simp [parse_logical_and_go] at h
  | succ f ih =>
      intro node toks n r hn h
      unfold parse_logical_and_go at h
      by_cases hop : (cur toks).type = TokenType.tokAnd
      · rw [if_pos hop] at h
        cases hx : parse_equality pe f (adv toks) with
        | error e => rw [hx, except_bind_error] at h; simp at h
        | ok p =>
            obtain ⟨right, t1⟩ := p
            rw [hx, except_bind_ok] at h
            refine ih _ t1 n r ?_ h
            intro _
            rfl
      · rw [if_neg hop] at h
        simp only [Except.ok.injEq, Prod.mk.injEq] at h
        rw [← h.1]
        exact hn

theorem parse_logical_and_root (pe : List Token → PResult)
    (hpe : ∀ toks n r, pe toks = .ok (n, r) → RootTyped n) :
    ∀ fuel toks n r, parse_logical_and pe fuel toks = .ok (n, r) → RootTyped n := by
  intro fuel toks n r h
  unfold parse_logical_and at h
  cases hx : parse_equality pe fuel toks with
  | error e => rw [hx, except_bind_error] at h; simp at h
  | ok p =>
      obtain ⟨node, t1⟩ := p
      rw [hx, except_bind_ok] at h
      exact parse_logical_and_go_root pe fuel node t1 n r
        (parse_equality_root pe hpe fuel toks node t1 hx) h

theorem parse_logical_xor_go_root (pe : List Token → PResult) :
    ∀ fuel node toks n r, RootTyped node →
      parse_logical_xor_go pe fuel node toks = .ok (n, r) → RootTyped n := by
  intro fuel
  induction fuel with
  | zero => intro node toks n r _ h; simp [parse_logical_xor_go] at h
  | succ f ih =>
      intro node toks n r hn h
      unfold parse_logical_xor_go at h
      by_cases hop : (cur toks).type = TokenType.tokXor
      · rw [if_pos hop] at h
        cases hx : parse_logical_and pe f (adv toks) with
        | error e => rw [hx, except_bind_error] at h; simp at h
        | ok p =>
            obtain ⟨right, t1⟩ := p
            rw [hx, except_bind_ok] at h
            refine ih _ t1 n r ?_ h
            intro _
            rfl
      · rw [if_neg hop] at h
        simp only [Except.ok.injEq, Prod.mk.injEq] at h
        rw [← h.1]
        exact hn

theorem parse_logical_xor_root (pe : List Token → PResult)
    (hpe : ∀ toks n r, pe toks = .ok (n, r) → RootTyped n) :
    ∀ fuel toks n r, parse_logical_xor pe fuel toks = .ok (n, r) → RootTyped n := by
  intro fuel toks n r h
  unfold parse_logical_xor at h
  cases hx : parse_logical_and pe fuel toks with
  | error e => rw [hx, except_bind_error] at h; simp at h
  | ok p =>
      obtain ⟨node, t1⟩ := p
      rw [hx, except_bind_ok] at h
      exact parse_logical_xor_go_root pe fuel node t1 n r
        (parse_logical_and_root pe hpe fuel toks node t1 hx) h

theorem parse_logical_or_go_root (pe : List Token → PResult) :
    ∀ fuel node toks n r, RootTyped node →
      parse_logical_or_go pe fuel node toks = .ok (n, r) → RootTyped n := by
  intro fuel
  induction fuel with
  | zero => intro node toks n r _ h; simp [parse_logical_or_go] at h
  | succ f ih =>
      intro node toks n r hn h
      unfold parse_logical_or_go at h
      by_cases hop : (cur toks).type = TokenType.tokOr
      · rw [if_pos hop] at h
        cases hx : parse_logical_xor pe f (adv toks) with
        | error e => rw [hx, except_bind_error] at h; simp at h
        | ok p =>
            obtain ⟨right, t1⟩ := p
            rw [hx, except_bind_ok] at h
            refine ih _ t1 n r ?_ h
            intro _
            rfl
      · rw [if_neg hop] at h
        simp only [Except.ok.injEq, Prod.mk.injEq] at h
        rw [← h.1]
        exact hn

theorem parse_logical_or_root (pe : List Token → PResult)
    (hpe : ∀ toks n r, pe toks = .ok (n, r) → RootTyped n) :
    ∀ fuel toks n r, parse_logical_or pe fuel toks = .ok (n, r) → RootTyped n := by
  intro fuel toks n r h
  unfold parse_logical_or at h
  cases hx : parse_logical_xor pe fuel toks with
  | error e => rw [hx, except_bind_error] at h; simp at h
  | ok p =>
      obtain ⟨node, t1⟩ := p
      rw [hx, except_bind_ok] at h
      exact parse_logical_or_go_root pe fuel node t1 n r
        (parse_logical_xor_root pe hpe fuel toks node t1 hx) h

/-- Every successful `parse_expression` result satisfies the root typing
discipline. -/
theorem parse_expression_root :
    ∀ fuel toks n r, parse_expression fuel toks = .ok (n, r) → RootTyped n := by
  intro fuel
  induction fuel with
  | zero => intro toks n r h; simp [parse_expression] at h
  | succ f ih =>
      intro toks n r h
      unfold parse_expression at h
      exact parse_logical_or_root (fun t => parse_expression f t) ih f toks n r h

/-! ### Helpers for stating the claims -/

/-- Root operator of an expression node, when it has one. -/
def rootOp : Expr → Option TokenType
  | .binary _ op _ _ => some op
  | .unary _ op _ => some op
  | _ => none

/-- Success test for an `Except` result. -/
def isOkB {ε α : Type} : Except ε α → Bool
  | .ok _ => true
  | .error _ => false

/-- Lines of a successful expression generation (empty on error). -/
def expr_lines (r : Except CgErr (List Line)) : List Line :=
  match r with
  | .ok ls => ls
  | .error _ => []

/-- Lines of a successful part_006 program generation (empty on error). -/
def cgIf_lines (r : Except CgErr (List Line × CGState)) : List Line :=
  match r with
  | .ok p => p.1
  | .error _ => []

theorem rt_setRT (e : Expr) (t : VarType) : (e.setRT t).rt = t := by
  cases e <;> rfl

theorem storable_iff (t : VarType) :
    storable t = true
      ↔ (t = .float ∨ t = .bool ∨ t = .char ∨ t = .string) := by
  cases t <;> simp [storable]

/-- Token sequence of the expression `2 + 3 * 4`. -/
def c1_tokens : List Token :=
  [⟨.tokNumber, "2"⟩, ⟨.tokPlus, ""⟩, ⟨.tokNumber, "3"⟩, ⟨.tokStar, ""⟩,
   ⟨.tokNumber, "4"⟩, ⟨.tokEof, ""⟩]

/-- The AST that part_009 actually builds for `2 + 3 * 4`: a single
left-associative tier, so the `+` node sits inside the left operand of
the `*` node. -/
def c1_tree : Expr :=
  .binary .int .tokStar
    (.binary .int .tokPlus (.literal .int ("2")) (.literal .int ("3")))
    (.literal .int ("4"))

/-- Claim C1 (counterexample): for the token sequence of `2 + 3 * 4`,
`parse_expression` does not build a tree with `*` nested inside the right
operand of `+`: the root operator is `*` (not `+`), and the compiled
expression evaluates to 20, not 14. -/
theorem C1_counterexample :
    parse_expression 20 c1_tokens = .ok (c1_tree, [⟨.tokEof, ""⟩])
      ∧ rootOp c1_tree = some .tokStar
      ∧ rootOp c1_tree ≠ some .tokPlus
      ∧ (exec (expr_lines (Codegen.generate_expression [] [] c1_tree)) initMachine).rax = 20
      ∧ spec_eval (fun _ => 0) c1_tree = 20
      ∧ (20 : Int) ≠ 14 := by
  refine ⟨by rfl, by decide, by decide, by decide, by decide, by decide⟩

/-- Claim C1 (amended): in part_009 the four arithmetic operators share
one left-associative precedence tier, so `2 + 3 * 4` parses with the `+`
operation nested inside the left operand of the `*` operation and the
expression evaluates to 20, not 14. -/
theorem C1_theorem :
    parse_expression 20 c1_tokens
        = .ok (.binary .int .tokStar
            (.binary .int .tokPlus (.literal .int ("2")) (.literal .int ("3")))
            (.literal .int ("4")), [⟨.tokEof, ""⟩])
      ∧ (exec (expr_lines (Codegen.generate_expression [] [] c1_tree)) initMachine).rax = 20
      ∧ spec_eval (fun _ => 0) c1_tree = 20
      ∧ (20 : Int) ≠ 14 := by
  refine ⟨by rfl, by decide, by decide, by decide⟩

/-- One-declaration program `int x = 5;`. -/
def c2_prog : List Stmt :=
  [.varDecl .int .int ("x") (.literal .int ("5"))]

/-- One-declaration program `int x = x;` (no literals, so the part_006
revision can compile it). -/
def c2x_prog : List Stmt :=
  [.varDecl .int .int ("x") (.ident .unknown ("x"))]

/-- Claim C2 (counterexample): the part_006 revision of `generate_program`
does not leave the last declared variable's value in the accumulator: on
`int x = 5;` it terminates fatally (its literal-label fetch rejects int
literals), and on the literal-free `int x = x;` it compiles but the
emitted code ends with `mov rax, 0` before `ret`, so the accumulator is
unconditionally zeroed. -/
theorem C2_counterexample :
    CodegenIf.generate_program 10 c2_prog ⟨⟨[], 0⟩, 0⟩
        = .error (.literalNotFound ("5"))
      ∧ last_var_value c2_prog = 5
      ∧ isOkB (CodegenIf.generate_program 10 c2x_prog ⟨⟨[], 0⟩, 0⟩) = true
      ∧ List.take 2 (List.reverse (cgIf_lines
          (CodegenIf.generate_program 10 c2x_prog ⟨⟨[], 0⟩, 0⟩)))
          = [.instr .ret, .instr (.movRaxImm ("0"))]
      ∧ (exec (cgIf_lines (CodegenIf.generate_program 10 c2x_prog ⟨⟨[], 0⟩, 0⟩))
          initMachine).rax = 0 := by
  refine ⟨by rfl, by decide, by decide, by decide, by decide⟩

/-- Claim C2 (amended): for every declaration sequence of the integer
fragment, the `src/codegen.c` revision of `generate_program` emits code
that leaves the final value of the last declared variable in the
accumulator immediately before the final `ret` — zero when there is no
declaration — as computed by the reference semantics `last_var_value`.
(The part_006 revision instead always zeroes the accumulator, see the
counterexample; float declarations are outside this machine model.) -/
theorem C2_theorem (prog : List Stmt) (h : int_program prog = true) :
    ∃ lines st, Codegen.generate_program prog ⟨[], 0⟩ = .ok (lines, st)
      ∧ (exec lines initMachine).rax = last_var_value prog :=
  generate_program_int_correct prog h

/-- Two-declaration program whose last variable ends at 4. -/
def c2_witness_prog : List Stmt :=
  [.varDecl .int .int ("x") (.binary .int .tokPlus (.literal .int ("2")) (.literal .int ("3"))),
   .varDecl .int .int ("y") (.binary .int .tokMinus (.ident .unknown ("x")) (.literal .int ("1")))]

/-- Claim C2 (witness): the amended claim applied to the concrete program
`int x = 2 + 3; int y = x - 1;`, whose last variable ends at 4. -/
theorem C2_witness :
    last_var_value c2_witness_prog = 4
      ∧ (∃ lines st, Codegen.generate_program c2_witness_prog ⟨[], 0⟩ = .ok (lines, st)
          ∧ (exec lines initMachine).rax = last_var_value c2_witness_prog) :=
  ⟨by decide, C2_theorem c2_witness_prog (by decide)⟩

/-- Program `float x = 1.5; if (x == 1.5) { float y = 2.5; }` (float
literals are collected, so the part_006 revision compiles it fully). -/
def c3_prog : List Stmt :=
  [.varDecl .float .float ("x") (.literal .float ("1.5")),
   .ifStmt .unknown
     (.binary .bool .tokEq (.ident .unknown ("x")) (.literal .float ("1.5")))
     [.varDecl .float .float ("y") (.literal .float ("2.5"))] none]

/-- Claim C3 (code bug): lowering an IfStatement in part_006 re-invokes
the whole of `generate_program` on the then-branch, so the emitted text
contains the read-only section header, the mutable-data section header,
`.global main` and the `main` label twice — the nested invocation re-emits
the full prologue, contradicting the specified statement-level-only
re-emission. -/
theorem C3_theorem :
    isOkB (CodegenIf.generate_program 10 c3_prog ⟨⟨[], 0⟩, 0⟩) = true
      ∧ (cgIf_lines (CodegenIf.generate_program 10 c3_prog ⟨⟨[], 0⟩, 0⟩)).count
          (Line.directive (".section .rodata")) = 2
      ∧ (cgIf_lines (CodegenIf.generate_program 10 c3_prog ⟨⟨[], 0⟩, 0⟩)).count
          (Line.directive (".data")) = 2
      ∧ (cgIf_lines (CodegenIf.generate_program 10 c3_prog ⟨⟨[], 0⟩, 0⟩)).count
          (Line.directive (".global main")) = 2
      ∧ (cgIf_lines (CodegenIf.generate_program 10 c3_prog ⟨⟨[], 0⟩, 0⟩)).count
          (Line.label ("main")) = 2 := by
  refine ⟨by decide, by decide, by decide, by decide, by decide⟩

/-- Program `int x = x; if (x == x) { int y = x; }`: literal-free, and
every referenced identifier is declared before use. -/
def c9_prog : List Stmt :=
  [.varDecl .int .int ("x") (.ident .unknown ("x")),
   .ifStmt .unknown
     (.binary .bool .tokEq (.ident .unknown ("x")) (.ident .unknown ("x")))
     [.varDecl .int .int ("y") (.ident .unknown ("x"))] none]

/-- Claim C9 (code bug): part_006's code generation does reach fatal
error branches on programs whose referenced identifiers were all
previously declared: on `int x = x; if (x == x) { int y = x; }` the
nested invocation for the then-branch rebuilds the symbol table from
`NULL`, so the lookup of the declared `x` inside the branch fails with the
undefined-variable exit; and on `int x = 5;` the unconditional literal
label fetch fails with the literal-not-found exit — a second fatal path
on well-typed input. -/
theorem C9_theorem :
    CodegenIf.generate_program 10 c9_prog ⟨⟨[], 0⟩, 0⟩
        = .error (.undefinedVariable ("x"))
      ∧ CodegenIf.generate_program 10 c2_prog ⟨⟨[], 0⟩, 0⟩
        = .error (.literalNotFound ("5")) := by
  exact ⟨by rfl, by rfl⟩

/-- Token sequence of the expression `10 - 3 - 2`. -/
def c4_tokens : List Token :=
  [⟨.tokNumber, "10"⟩, ⟨.tokMinus, ""⟩, ⟨.tokNumber, "3"⟩, ⟨.tokMinus, ""⟩,
   ⟨.tokNumber, "2"⟩, ⟨.tokEof, ""⟩]

/-- Left-associative AST of `10 - 3 - 2`. -/
def c4_tree : Expr :=
  .binary .int .tokMinus
    (.binary .int .tokMinus (.literal .int ("10")) (.literal .int ("3")))
    (.literal .int ("2"))

/-- Claim C4: in both revisions of `generate_expression`, a BinaryExpr
node emits the right operand's code first, a push, then the left
operand's code, a pop into the scratch register, then the operator lines
with the left operand in the accumulator (the minuend/dividend position);
on the integer fragment the emitted code therefore computes
left-minus-right for `-` and left-divided-by-right (truncating) for `/`;
and concretely `10 - 3 - 2` parses left-associatively and compiles to code
evaluating to 5, not 9. -/
theorem C4_theorem (entries : List LiteralEntry) (symbols : List Symbol)
    (decl : List String) (rt : VarType) (op : TokenType) (l r : Expr)
    (env : String → Int) (s : MachineState)
    (hsym : SymsOk symbols decl)
    (hl : int_expr decl l = true) (hr : int_expr decl r = true)
    (hmem : s.mem = env) :
    (∀ cr cl, CodegenIf.generate_expression entries symbols r = .ok cr →
        CodegenIf.generate_expression entries symbols l = .ok cl →
        CodegenIf.generate_expression entries symbols (.binary rt op l r)
          = .ok (cr ++ [.instr .pushRax] ++ cl ++ [.instr .popRbx] ++ binop_lines op))
      ∧ (∀ cr cl, Codegen.generate_expression entries symbols r = .ok cr →
          Codegen.generate_expression entries symbols l = .ok cl →
          Codegen.generate_expression entries symbols (.binary rt op l r)
            = .ok (cr ++ [.instr .pushRax] ++ cl ++ [.instr .popRbx] ++ binop_lines op))
      ∧ (∃ code, Codegen.generate_expression entries symbols (.binary rt .tokMinus l r)
            = .ok code
          ∧ (exec code s).rax = spec_eval env l - spec_eval env r)
      ∧ (∃ code, Codegen.generate_expression entries symbols (.binary rt .tokSlash l r)
            = .ok code
          ∧ (exec code s).rax = (spec_eval env l).tdiv (spec_eval env r))
      ∧ parse_expression 20 c4_tokens = .ok (c4_tree, [⟨.tokEof, ""⟩])
      ∧ (exec (expr_lines (Codegen.generate_expression [] [] c4_tree)) initMachine).rax = 5
      ∧ (5 : Int) ≠ 9 := by
  refine ⟨?_, ?_, ?_, ?_, by rfl, by decide, by decide⟩
  · intro cr cl hcr hcl
    simp only [CodegenIf.generate_expression, hcr, hcl, except_bind_ok]
  · intro cr cl hcr hcl
    simp only [Codegen.generate_expression, hcr, hcl, except_bind_ok]
  · have hint : int_expr decl (.binary rt .tokMinus l r) = true := by
      simp [int_expr, binop_supported, hl, hr]
    obtain ⟨code, hc, hrax, _, _⟩ :=
      generate_expression_correct entries symbols decl hsym _ hint env s hmem
    refine ⟨code, hc, ?_⟩
    rw [hrax]
    simp [spec_eval]
  · have hint : int_expr decl (.binary rt .tokSlash l r) = true := by
      simp [int_expr, binop_supported, hl, hr]
    obtain ⟨code, hc, hrax, _, _⟩ :=
      generate_expression_correct entries symbols decl hsym _ hint env s hmem
    refine ⟨code, hc, ?_⟩
    rw [hrax]
    simp [spec_eval]

/-- Claim C4 (witness): the theorem applied to the concrete operands 7 and
3 with one declared variable and the initial machine. -/
theorem C4_witness :
    (∀ cr cl, CodegenIf.generate_expression [] [⟨"a", .int⟩] (.literal .int ("3")) = .ok cr →
        CodegenIf.generate_expression [] [⟨"a", .int⟩] (.literal .int ("7")) = .ok cl →
        CodegenIf.generate_expression [] [⟨"a", .int⟩]
            (.binary .int .tokMinus (.literal .int ("7")) (.literal .int ("3")))
          = .ok (cr ++ [.instr .pushRax] ++ cl ++ [.instr .popRbx]
              ++ binop_lines .tokMinus))
      ∧ (∀ cr cl, Codegen.generate_expression [] [⟨"a", .int⟩] (.literal .int ("3")) = .ok cr →
          Codegen.generate_expression [] [⟨"a", .int⟩] (.literal .int ("7")) = .ok cl →
          Codegen.generate_expression [] [⟨"a", .int⟩]
              (.binary .int .tokMinus (.literal .int ("7")) (.literal .int ("3")))
            = .ok (cr ++ [.instr .pushRax] ++ cl ++ [.instr .popRbx]
                ++ binop_lines .tokMinus))
      ∧ (∃ code, Codegen.generate_expression [] [⟨"a", .int⟩]
            (.binary .int .tokMinus (.literal .int ("7")) (.literal .int ("3"))) = .ok code
          ∧ (exec code initMachine).rax
              = spec_eval (fun _ => 0) (.literal .int ("7"))
                - spec_eval (fun _ => 0) (.literal .int ("3")))
      ∧ (∃ code, Codegen.generate_expression [] [⟨"a", .int⟩]
            (.binary .int .tokSlash (.literal .int ("7")) (.literal .int ("3"))) = .ok code
          ∧ (exec code initMachine).rax
              = (spec_eval (fun _ => 0) (.literal .int ("7"))).tdiv
                  (spec_eval (fun _ => 0) (.literal .int ("3"))))
      ∧ parse_expression 20 c4_tokens = .ok (c4_tree, [⟨.tokEof, ""⟩])
      ∧ (exec (expr_lines (Codegen.generate_expression [] [] c4_tree)) initMachine).rax = 5
      ∧ (5 : Int) ≠ 9 :=
  C4_theorem [] [⟨"a", .int⟩] ["a"] .int .tokMinus
    (.literal .int ("7")) (.literal .int ("3")) (fun _ => 0) initMachine
    (by decide) (by decide) (by decide) rfl

/-- First-encounter characterization of the collector from the empty
table: newest-first entries, reversed, are exactly the deduplicated
pre-order walk labelled `L_literal_0, L_literal_1, ...`. -/
theorem collect_literals_char (prog : List Stmt) :
    (CodegenIf.collect_literals prog ⟨[], 0⟩).entries.reverse
      = label_entries 0 (dedup_first [] (literal_walk prog)) := by
  rw [collect_literals_eq_foldl]
  obtain ⟨h1, _⟩ := foldl_add_key_char (literal_walk prog) ⟨[], 0⟩
  rw [h1]
  simp [litKeys]

/-- Every collected entry has a storable type. -/
theorem collect_entry_storable (prog : List Stmt) (e : LiteralEntry)
    (he : e ∈ (CodegenIf.collect_literals prog ⟨[], 0⟩).entries) :
    storable e.type = true := by
  have he' : e ∈ label_entries 0 (dedup_first [] (literal_walk prog)) := by
    rw [← collect_literals_char prog]
    exact List.mem_reverse.mpr he
  have hkey := label_entries_key_mem _ 0 e he'
  have hwalk := dedup_first_subset _ [] _ hkey
  simpa using literal_walk_storable prog (e.value, e.type) hwalk

/-- Claim C5: literal collection deduplicates by `(text, type)` — running
the collector twice over the same AST from any table state yields exactly
the same table as running it once; from the empty table the entries (in
insertion order) are the first encounters of the collector's pre-order,
left-to-right walk, labelled by the monotonically increasing counter
`L_literal_0, L_literal_1, ...`; and two entries with identical text but
different types carry distinct labels. -/
theorem C5_theorem :
    (∀ prog st, CodegenIf.collect_literals prog (CodegenIf.collect_literals prog st)
        = CodegenIf.collect_literals prog st)
      ∧ (∀ prog, (CodegenIf.collect_literals prog ⟨[], 0⟩).entries.reverse
          = label_entries 0 (dedup_first [] (literal_walk prog)))
      ∧ (∀ prog e₁ e₂,
          e₁ ∈ (CodegenIf.collect_literals prog ⟨[], 0⟩).entries →
          e₂ ∈ (CodegenIf.collect_literals prog ⟨[], 0⟩).entries →
          e₁.value = e₂.value → e₁.type ≠ e₂.type → e₁.label ≠ e₂.label) := by
  refine ⟨?_, collect_literals_char, ?_⟩
  · intro prog st
    simp only [collect_literals_eq_foldl]
    exact foldl_add_key_id _ _ (fun k hk => foldl_add_key_adds _ st k hk)
  · intro prog e₁ e₂ h1 h2 _ htype hlab
    have he1 : e₁ ∈ label_entries 0 (dedup_first [] (literal_walk prog)) := by
      rw [← collect_literals_char prog]
      exact List.mem_reverse.mpr h1
    have he2 : e₂ ∈ label_entries 0 (dedup_first [] (literal_walk prog)) := by
      rw [← collect_literals_char prog]
      exact List.mem_reverse.mpr h2
    have := label_entries_label_inj _ 0 e₁ e₂ he1 he2 hlab
    exact htype (by rw [this])

/-- Program with a float literal, a string literal of the same text and a
repeated float literal. -/
def c5_prog : List Stmt :=
  [.varDecl .float .float ("a") (.literal .float ("3.14")),
   .varDecl .string .string ("b") (.literal .string ("3.14")),
   .varDecl .float .float ("c") (.literal .float ("3.14"))]

/-- Claim C5 (witness): the theorem applied to a concrete program in which
the same text occurs at two types and one literal repeats. -/
theorem C5_witness :
    (CodegenIf.collect_literals c5_prog (CodegenIf.collect_literals c5_prog ⟨[], 0⟩)
        = CodegenIf.collect_literals c5_prog ⟨[], 0⟩)
      ∧ ((⟨"L_literal_0", "3.14", .float⟩ : LiteralEntry).label
          ≠ (⟨"L_literal_1", "3.14", .string⟩ : LiteralEntry).label) :=
  ⟨ C5_theorem.1 c5_prog ⟨[], 0⟩,
   C5_theorem.2.2 c5_prog ⟨"L_literal_0", "3.14", .float⟩ ⟨"L_literal_1", "3.14", .string⟩
     (by decide) (by decide) (by decide) (by decide)⟩

/-- Claim C6 (counterexample): the part_006 revision of
`generate_expression` does not emit an int literal as an immediate: it
fetches a table label for every literal first, and since int literals are
never collected, the fetch fails fatally. -/
theorem C6_counterexample :
    CodegenIf.generate_expression [] [] (.literal .int ("42"))
      = .error (.literalNotFound ("42")) := by
  rfl

/-- Claim C6 (amended): the collector only ever registers literals of type
float, bool, char or string — never int — and the `src/codegen.c` revision
of `generate_expression` emits an int literal as an immediate `mov` into
the accumulator, not as a load from a storage label (the part_006 revision
instead exits fatally on int literals, see the counterexample). -/
theorem C6_theorem :
    (∀ prog e, e ∈ (CodegenIf.collect_literals prog ⟨[], 0⟩).entries →
        (e.type = .float ∨ e.type = .bool ∨ e.type = .char ∨ e.type = .string)
          ∧ e.type ≠ .int)
      ∧ (∀ entries symbols t, Codegen.generate_expression entries symbols
          (.literal .int t) = .ok [.instr (.movRaxImm t)]) := by
  constructor
  · intro prog e he
    have hst := (storable_iff e.type).mp (collect_entry_storable prog e he)
    refine ⟨hst, ?_⟩
    rcases hst with h | h | h | h <;> simp [h]
  · intro entries symbols t
    rfl

/-- Claim C6 (witness): the theorem applied to a concrete program holding
a float literal and to the int literal `42`. -/
theorem C6_witness :
    (((⟨"L_literal_0", "2.5", .float⟩ : LiteralEntry).type = .float
        ∨ (⟨"L_literal_0", "2.5", .float⟩ : LiteralEntry).type = .bool
        ∨ (⟨"L_literal_0", "2.5", .float⟩ : LiteralEntry).type = .char
        ∨ (⟨"L_literal_0", "2.5", .float⟩ : LiteralEntry).type = .string)
      ∧ (⟨"L_literal_0", "2.5", .float⟩ : LiteralEntry).type ≠ .int)
      ∧ Codegen.generate_expression [] [] (.literal .int ("42"))
          = .ok [.instr (.movRaxImm ("42"))] :=
  ⟨ C6_theorem.1 [.varDecl .float .float ("a") (.literal .float ("2.5"))]
     ⟨"L_literal_0", "2.5", .float⟩ (by decide),
   C6_theorem.2 [] [] ("42")⟩

/-- Token sequence of `int x = 1; int y = 2; int z = x + y;`. -/
def c7_tokens : List Token :=
  [⟨.tokInt, ""⟩, ⟨.tokIdentifier, "x"⟩, ⟨.tokAssign, ""⟩, ⟨.tokNumber, "1"⟩,
   ⟨.tokSemicolon, ""⟩,
   ⟨.tokInt, ""⟩, ⟨.tokIdentifier, "y"⟩, ⟨.tokAssign, ""⟩, ⟨.tokNumber, "2"⟩,
   ⟨.tokSemicolon, ""⟩,
   ⟨.tokInt, ""⟩, ⟨.tokIdentifier, "z"⟩, ⟨.tokAssign, ""⟩, ⟨.tokIdentifier, "x"⟩,
   ⟨.tokPlus, ""⟩, ⟨.tokIdentifier, "y"⟩, ⟨.tokSemicolon, ""⟩, ⟨.tokEof, ""⟩]

/-- The AST that part_009 builds for `c7_tokens`: the third initializer is
an arithmetic BinaryExpr over two identifiers and keeps
`result_type = TYPE_UNKNOWN`. -/
def c7_prog : List Stmt :=
  [.varDecl .int .int ("x") (.literal .int ("1")),
   .varDecl .int .int ("y") (.literal .int ("2")),
   .varDecl .int .int ("z")
     (.binary .unknown .tokPlus (.ident .unknown ("x")) (.ident .unknown ("y")))]

/-- Claim C7 (counterexample): `int x = 1; int y = 2; int z = x + y;` is
accepted by `parse_program`, its third initializer is a BinaryExpr whose
`result_type` is still `TYPE_UNKNOWN` when parsing completes, and the
part_006 code generator nevertheless emits it successfully — so an emitted
BinaryExpr can carry `TYPE_UNKNOWN`. -/
theorem C7_counterexample :
    parse_program 30 c7_tokens
        = .ok (c7_prog, [⟨.tokEof, ""⟩], [.typeMismatch ("z") .int .unknown])
      ∧ Expr.rt (.binary .unknown .tokPlus (.ident .unknown ("x")) (.ident .unknown ("y")))
          = .unknown
      ∧ isOkB (Codegen.generate_program c7_prog ⟨[], 0⟩) = true := by
  refine ⟨by rfl, by rfl, by decide⟩

/-- Claim C7 (amended): parse-time type resolution is only partial — every
expression production returns a root respecting `RootTyped`
(logical/equality/comparison roots are bool-typed and `!` roots carry
`TYPE_UNKNOWN`), but arithmetic BinaryExpr nodes over identifier operands
can keep `TYPE_UNKNOWN` through the end of parsing and still be emitted by
the code generator, as `int x = 1; int y = 2; int z = x + y;` shows. -/
theorem C7_theorem :
    (∀ fuel toks n r, parse_expression fuel toks = .ok (n, r) → RootTyped n)
      ∧ (parse_program 30 c7_tokens
          = .ok (c7_prog, [⟨.tokEof, ""⟩], [.typeMismatch ("z") .int .unknown])
        ∧ Expr.rt (.binary .unknown .tokPlus (.ident .unknown ("x"))
            (.ident .unknown ("y"))) = .unknown
        ∧ isOkB (Codegen.generate_program c7_prog ⟨[], 0⟩) = true) :=
  ⟨parse_expression_root, by rfl, by rfl, by decide⟩

/-- Claim C7 (witness): the universal part of the theorem applied to the
concrete parse of `2 + 3 * 4`. -/
theorem C7_witness : RootTyped c1_tree :=
  C7_theorem.1 20 c1_tokens c1_tree [⟨.tokEof, ""⟩] (by rfl)

/-- Claim C8: in `parse_var_decl`, a declared bool type forces the
initializer's result type to bool; a declared int or float type coerces a
bool-typed initializer to int; and a residual mismatch only appends a
non-fatal warning, after which the VarDecl node is still returned. -/
theorem C8_theorem (fuel : Nat) (toks : List Token) (var_type : VarType)
    (value : Expr) (t4 : List Token)
    (hdt : dtOfToken (cur toks).type = some var_type)
    (hid : (cur (adv toks)).type = .tokIdentifier)
    (hassign : (cur (adv (adv toks))).type = .tokAssign)
    (hpe : parse_expression fuel (adv (adv (adv toks))) = .ok (value, t4))
    (hsemi : (cur t4).type = .tokSemicolon) :
    ∃ value1,
      parse_var_decl fuel toks
          = .ok (.varDecl var_type var_type (cur (adv toks)).lexeme value1, adv t4,
              if value1.rt ≠ var_type
              then [Warning.typeMismatch (cur (adv toks)).lexeme var_type value1.rt]
              else [])
        ∧ (var_type = .bool → value1 = value.setRT .bool)
        ∧ ((var_type = .int ∨ var_type = .float) → value.rt = .bool →
            value1 = value.setRT .int)
        ∧ (var_type = .bool → value1.rt = .bool)
        ∧ ((var_type = .int ∨ var_type = .float) → value1.rt ≠ .bool) := by
  refine ⟨if var_type = .bool then value.setRT .bool
    else if (var_type = .int ∨ var_type = .float) ∧ value.rt = .bool then value.setRT .int
    else value, ?_, ?_, ?_, ?_, ?_⟩
  · simp only [parse_var_decl, hdt, hid, if_pos, hassign, hpe, except_bind_ok, hsemi,
      create_var_decl_node]
  · intro hb
    simp [hb]
  · intro hif hbool
    have hnb : ¬ var_type = .bool := by
      rcases hif with h | h <;> simp [h]
    simp [hnb, hif, hbool]
  · intro hb
    simp [hb, rt_setRT]
  · intro hif
    have hnb : ¬ var_type = .bool := by
      rcases hif with h | h <;> simp [h]
    by_cases hbool : value.rt = .bool
    · have : (var_type = .int ∨ var_type = .float) ∧ value.rt = .bool := ⟨hif, hbool⟩
      simp only [if_neg hnb, if_pos this, rt_setRT]
      simp
    · have : ¬ ((var_type = .int ∨ var_type = .float) ∧ value.rt = .bool) := by
        intro hc
        exact hbool hc.2
      simp only [if_neg hnb, if_neg this]
      exact hbool

/-- Claim C8 (witness): the theorem applied to the tokens of
`float y = true;` — the bool initializer is coerced to int and the
residual int-versus-float mismatch produces the non-fatal warning while
the declaration node is still returned. -/
theorem C8_witness :
    ∃ value1,
      parse_var_decl 10
          [⟨.tokFloat, ""⟩, ⟨.tokIdentifier, "y"⟩, ⟨.tokAssign, ""⟩,
           ⟨.tokBoolLit, "true"⟩, ⟨.tokSemicolon, ""⟩, ⟨.tokEof, ""⟩]
          = .ok (.varDecl .float .float ("y") value1, [⟨.tokEof, ""⟩],
              if value1.rt ≠ .float
              then [Warning.typeMismatch ("y") .float value1.rt]
              else [])
        ∧ (VarType.float = .bool → value1 = (Expr.literal .bool ("true")).setRT .bool)
        ∧ ((VarType.float = .int ∨ VarType.float = .float) →
            (Expr.literal .bool ("true")).rt = .bool →
            value1 = (Expr.literal .bool ("true")).setRT .int)
        ∧ (VarType.float = .bool → value1.rt = .bool)
        ∧ ((VarType.float = .int ∨ VarType.float = .float) → value1.rt ≠ .bool) :=
  C8_theorem 10
    [⟨.tokFloat, ""⟩, ⟨.tokIdentifier, "y"⟩, ⟨.tokAssign, ""⟩,
     ⟨.tokBoolLit, "true"⟩, ⟨.tokSemicolon, ""⟩, ⟨.tokEof, ""⟩]
    .float (.literal .bool ("true")) [⟨.tokSemicolon, ""⟩, ⟨.tokEof, ""⟩]
    (by rfl) (by rfl) (by rfl) (by rfl) (by rfl)

/-- Claim C10: for every collected literal of type bool, the read-only
data section emits a `.quad` whose value text is `1` exactly when the
literal's text is `"true"` and `0` for every other text. -/
theorem C10_theorem (entries : List LiteralEntry) (e : LiteralEntry)
    (he : e ∈ entries) (hb : e.type = .bool) :
    Line.dataQuad e.label (if e.value == "true" then "1" else "0")
        ∈ generate_literals_section entries
      ∧ ((if e.value == ("true" : String) then ("1" : String) else "0") = "1"
          ↔ e.value = "true")
      ∧ ((if e.value == ("true" : String) then ("1" : String) else "0") = "0"
          ↔ e.value ≠ "true") := by
  refine ⟨?_, ?_, ?_⟩
  · refine List.mem_filterMap.mpr ⟨e, he, ?_⟩
    simp only [hb]
  · by_cases hv : e.value = "true" <;> simp [hv]
  · by_cases hv : e.value = "true" <;> simp [hv]

/-- Claim C10 (witness): the theorem applied to a two-entry bool table;
the `"true"` text emits 1 and the text `"banana"` emits 0. -/
theorem C10_witness :
    (Line.dataQuad ("L_literal_0")
        (if ("true" : String) == "true" then "1" else "0")
        ∈ generate_literals_section
          [⟨"L_literal_0", "true", .bool⟩, ⟨"L_literal_1", "banana", .bool⟩]
      ∧ ((if ("true" : String) == ("true" : String) then ("1" : String) else "0") = "1"
          ↔ ("true" : String) = "true")
      ∧ ((if ("true" : String) == ("true" : String) then ("1" : String) else "0") = "0"
          ↔ ("true" : String) ≠ "true"))
      ∧ (Line.dataQuad ("L_literal_1")
          (if ("banana" : String) == "true" then "1" else "0")
          ∈ generate_literals_section
            [⟨"L_literal_0", "true", .bool⟩, ⟨"L_literal_1", "banana", .bool⟩]
        ∧ ((if ("banana" : String) == ("true" : String) then ("1" : String) else "0") = "1"
            ↔ ("banana" : String) = "true")
        ∧ ((if ("banana" : String) == ("true" : String) then ("1" : String) else "0") = "0"
            ↔ ("banana" : String) ≠ "true")) :=
  ⟨ C10_theorem [⟨"L_literal_0", "true", .bool⟩, ⟨"L_literal_1", "banana", .bool⟩]
     ⟨"L_literal_0", "true", .bool⟩ (by decide) (by decide),
   C10_theorem [⟨"L_literal_0", "true", .bool⟩, ⟨"L_literal_1", "banana", .bool⟩]
     ⟨"L_literal_1", "banana", .bool⟩ (by decide) (by decide)⟩

end SEG
